import Mathlib

/-!
Shallow embedding of `src/midas/src/lib.rs` (crate `midas_rs`): a streaming
anomaly detector over count-min sketches, in two variants (`Midas`, fixed
window, and `MidasR`, exponentially decayed).

Modelling conventions:
* Rust `f64` values are modelled by `FP`: an exact IEEE-754-style domain with
  NaN, plus/minus infinity and finite values carried as rationals.  All special
  value propagation (division by zero, `inf - inf = NaN`, NaN absorption,
  the asymmetric NaN behaviour of the source's `float_max` / `float_min`)
  follows IEEE 754 and the Rust source; only rounding of finite results is
  idealised away (finite arithmetic is exact).
* Rust `u64` wrapping arithmetic is modelled on `Nat` with explicit `% 2^64`.
  Release-mode semantics are used for `current_time - 1` (two's-complement
  wraparound on underflow).
* The final `f64::ln_1p` of `MidasR::query` is transcendental, so scores of
  that variant live in `FR`, the same domain with real payloads, and use
  `Real.log`; everything below that point is computable.
* Rust `Vec<f64>` buckets are `List FP`; `Vec<Row>` is `List Row`.
-/

/-- Exact model of an `f64` value: NaN, the two infinities, or a finite
value carried as an exact rational (finite arithmetic is not rounded). -/
inductive FP : Type where
  | nan : FP
  | pinf : FP
  | ninf : FP
  | fin : ℚ → FP
deriving DecidableEq

namespace FP

/-- IEEE negation. -/
def neg : FP → FP
  | nan => nan
  | pinf => ninf
  | ninf => pinf
  | fin q => fin (-q)

/-- IEEE addition (without rounding of the finite case). -/
def add : FP → FP → FP
  | nan, _ => nan
  | pinf, nan => nan
  | pinf, pinf => pinf
  | pinf, ninf => nan
  | pinf, fin _ => pinf
  | ninf, nan => nan
  | ninf, pinf => nan
  | ninf, ninf => ninf
  | ninf, fin _ => ninf
  | fin _, nan => nan
  | fin _, pinf => pinf
  | fin _, ninf => ninf
  | fin a, fin b => fin (a + b)

/-- IEEE subtraction, as addition of the negation. -/
def sub (x y : FP) : FP := x.add y.neg

/-- IEEE multiplication (without rounding of the finite case). -/
def mul : FP → FP → FP
  | nan, _ => nan
  | pinf, nan => nan
  | pinf, pinf => pinf
  | pinf, ninf => ninf
  | pinf, fin b => if 0 < b then pinf else if b < 0 then ninf else nan
  | ninf, nan => nan
  | ninf, pinf => ninf
  | ninf, ninf => pinf
  | ninf, fin b => if 0 < b then ninf else if b < 0 then pinf else nan
  | fin _, nan => nan
  | fin a, pinf => if 0 < a then pinf else if a < 0 then ninf else nan
  | fin a, ninf => if 0 < a then ninf else if a < 0 then pinf else nan
  | fin a, fin b => fin (a * b)

/-- IEEE division (without rounding of the finite case; signed zeros are
not modelled, a finite value divided by zero takes the sign of the
numerator, and `0/0`, `inf/inf` are NaN). -/
def div : FP → FP → FP
  | nan, _ => nan
  | pinf, nan => nan
  | pinf, pinf => nan
  | pinf, ninf => nan
  | pinf, fin b => if 0 ≤ b then pinf else ninf
  | ninf, nan => nan
  | ninf, pinf => nan
  | ninf, ninf => nan
  | ninf, fin b => if 0 ≤ b then ninf else pinf
  | fin _, nan => nan
  | fin _, pinf => fin 0
  | fin _, ninf => fin 0
  | fin a, fin b =>
    if b = 0 then (if 0 < a then pinf else if a < 0 then ninf else nan)
    else fin (a / b)

/-- IEEE `<=` as a boolean: any comparison involving NaN is false. -/
def ble : FP → FP → Bool
  | nan, _ => false
  | pinf, nan => false
  | pinf, pinf => true
  | pinf, ninf => false
  | pinf, fin _ => false
  | ninf, nan => false
  | ninf, pinf => true
  | ninf, ninf => true
  | ninf, fin _ => true
  | fin _, nan => false
  | fin _, pinf => true
  | fin _, ninf => false
  | fin a, fin b => decide (a ≤ b)

/-- IEEE `<` as a boolean: any comparison involving NaN is false. -/
def blt : FP → FP → Bool
  | nan, _ => false
  | pinf, nan => false
  | pinf, pinf => false
  | pinf, ninf => false
  | pinf, fin _ => false
  | ninf, nan => false
  | ninf, pinf => true
  | ninf, ninf => false
  | ninf, fin _ => true
  | fin _, nan => false
  | fin _, pinf => true
  | fin _, ninf => false
  | fin a, fin b => decide (a < b)

/-- Natural-number power, as iterated multiplication (`x^0 = 1`, matching
`powi` which returns `1` even on NaN input at exponent zero). -/
def npw : FP → ℕ → FP
  | _, 0 => fin 1
  | x, n + 1 => x.mul (x.npw n)

/-- Model of `f64::powi`: an integer exponent, a negative exponent dividing
one by the positive power.  Finite results are exact (no rounding). -/
def powi (x : FP) (n : ℤ) : FP :=
  if 0 ≤ n then x.npw n.toNat else (fin 1).div (x.npw (-n).toNat)

end FP

/-- The wraparound conversion `u64 as i32` performed by the source on the
time delta passed to `powi` (`self.alpha.powi(time_delta as _)`). -/
def u64AsI32 (d : ℕ) : ℤ :=
  let m : ℕ := d % 2 ^ 32
  if m < 2 ^ 31 then (m : ℤ) else (m : ℤ) - 2 ^ 32

/-- Wrapping `u64` multiplication. -/
def wmul (x y : ℕ) : ℕ := (x * y) % 2 ^ 64

/-- Wrapping `u64` addition. -/
def wadd (x y : ℕ) : ℕ := (x + y) % 2 ^ 64

/-- The release-mode value of the `u64` expression `t - 1` (wraps to
`2^64 - 1` at `t = 0`). -/
def u64sub1 (t : ℕ) : ℕ := (t + (2 ^ 64 - 1)) % 2 ^ 64

/-- A natural number cast to a float, as in `current_time as Float`
(exact in the model). -/
def natF (t : ℕ) : FP := FP.fin (t : ℚ)

/-- The constant `FLOAT_MAX = std::f64::MAX`, exactly `2^1024 - 2^971`. -/
def FLOAT_MAX : FP := FP.fin ((2 : ℚ) ^ 1024 - 2 ^ 971)

/-- The source's `float_max`: `if a >= b { a } else { b }`. -/
def float_max (a b : FP) : FP := if b.ble a then a else b

/-- The source's `float_min`: `if a <= b { a } else { b }`. -/
def float_min (a b : FP) : FP := if a.ble b then a else b

/-- Modelled from the spec: the deterministic parameter generator.  The
source delegates to `SmallRng` from the external `rand` crate, whose
algorithm is not part of this repository; the spec relies only on the
stream being a reproducible function of the seed and on the output range
(`next_u32` widened to `u64`, hence below `2^32`).  A concrete linear
congruential step in that range stands in for it. -/
structure Rng where
  state : ℕ
deriving DecidableEq

namespace Rng

/-- Modelled from the spec: seeding the generator (`SmallRng::seed_from_u64`). -/
def new (seed : ℕ) : Rng := ⟨seed % 2 ^ 64⟩

/-- Modelled from the spec: one draw (`next_u32() as Int`, below `2^32`),
returning the value and the advanced generator. -/
def rand (r : Rng) : ℕ × Rng :=
  let s := (r.state * 6364136223846793005 + 1442695040888963407) % 2 ^ 64
  (s / 2 ^ 32, ⟨s⟩)

end Rng

/-- One sketch row: affine hash coefficients and the bucket counters. -/
structure Row where
  a : ℕ
  b : ℕ
  buckets : List FP
deriving DecidableEq

namespace Row

/-- Construction of a row (`Row::new`): draws `a` and `b` from the
generator and zeroes the counters.  Faithful for `buckets ≥ 2` (below
that the source's `u64` arithmetic panics or wraps at construction). -/
def new (buckets : ℕ) (rng : Rng) : Row × Rng :=
  let p1 := rng.rand
  let p2 := p1.2.rand
  ({ a := p1.1 % (buckets - 1) + 1
     b := p2.1 % buckets
     buckets := List.replicate buckets (FP.fin 0) }, p2.2)

/-- The source's `num_buckets`. -/
def num_buckets (r : Row) : ℕ := r.buckets.length

/-- The source's `Row::hash`: staged wrapping `u64` arithmetic followed by
reduction modulo the bucket count.  The dead negativity correction of the
source (`resid` is unsigned) is kept literally. -/
def hash (r : Row) (m_value source dest : ℕ) : ℕ :=
  let resid := (wadd (wmul (wadd (wmul m_value dest) source) r.a) r.b) % r.num_buckets
  resid + (if resid < 0 then r.num_buckets else 0)

/-- The source's `Row::insert`: adds `weight` to the hashed bucket. -/
def insert (r : Row) (m_value source dest : ℕ) (weight : FP) : Row :=
  let h := r.hash m_value source dest
  { r with buckets := r.buckets.set h ((r.buckets.getD h (FP.fin 0)).add weight) }

/-- The source's `Row::node_insert`. -/
def node_insert (r : Row) (a : ℕ) (weight : FP) : Row := r.insert 0 a 0 weight

/-- The source's `Row::count`: reads the hashed bucket. -/
def count (r : Row) (m_value source dest : ℕ) : FP :=
  r.buckets.getD (r.hash m_value source dest) (FP.fin 0)

/-- The source's `Row::node_count`. -/
def node_count (r : Row) (source : ℕ) : FP := r.count 0 source 0

/-- The source's `Row::clear`: zeroes every counter. -/
def clear (r : Row) : Row :=
  { r with buckets := r.buckets.map (fun _ => FP.fin 0) }

/-- The source's `Row::lower`: multiplies every counter by `alpha`. -/
def lower (r : Row) (alpha : FP) : Row :=
  { r with buckets := r.buckets.map (fun v => v.mul alpha) }

end Row

/-- Builds `rows` sketch rows, threading the generator through them
(the `(0..rows).map(|_| Row::new(buckets, &mut rng))` of the source). -/
def mkRows : ℕ → ℕ → Rng → List Row
  | 0, _, _ => []
  | n + 1, buckets, rng =>
    let p := Row.new buckets rng
    p.1 :: mkRows n buckets p.2

/-- The per-edge count-min sketch (`EdgeHash`). -/
structure EdgeHash where
  m_value : ℕ
  rows : List Row
deriving DecidableEq

namespace EdgeHash

/-- The source's `EdgeHash::new`. -/
def new (rows buckets m_value seed : ℕ) : EdgeHash :=
  { m_value := m_value, rows := mkRows rows buckets (Rng.new seed) }

/-- The source's `EdgeHash::lower`: decays every row. -/
def lower (h : EdgeHash) (alpha : FP) : EdgeHash :=
  { h with rows := h.rows.map (fun r => r.lower alpha) }

/-- The source's `EdgeHash::clear`: clears every row. -/
def clear (h : EdgeHash) : EdgeHash :=
  { h with rows := h.rows.map Row.clear }

/-- The source's `EdgeHash::insert`: inserts into every row. -/
def insert (h : EdgeHash) (source dest : ℕ) (weight : FP) : EdgeHash :=
  { h with rows := h.rows.map (fun r => r.insert h.m_value source dest weight) }

/-- The source's `EdgeHash::count`: folds `float_min` over the per-row
counts starting from `FLOAT_MAX`. -/
def count (h : EdgeHash) (source dest : ℕ) : FP :=
  (h.rows.map (fun r => r.count h.m_value source dest)).foldl float_min FLOAT_MAX

end EdgeHash

/-- The per-node count-min sketch (`NodeHash`). -/
structure NodeHash where
  rows : List Row
deriving DecidableEq

namespace NodeHash

/-- The source's `NodeHash::new`. -/
def new (rows buckets seed : ℕ) : NodeHash :=
  { rows := mkRows rows buckets (Rng.new seed) }

/-- The source's `NodeHash::count`. -/
def count (h : NodeHash) (source : ℕ) : FP :=
  (h.rows.map (fun r => r.node_count source)).foldl float_min FLOAT_MAX

/-- The source's `NodeHash::lower`. -/
def lower (h : NodeHash) (alpha : FP) : NodeHash :=
  { rows := h.rows.map (fun r => r.lower alpha) }

/-- The source's `NodeHash::insert`. -/
def insert (h : NodeHash) (source : ℕ) (weight : FP) : NodeHash :=
  { rows := h.rows.map (fun r => r.node_insert source weight) }

end NodeHash

/-- The source's `counts_to_anom`.  Note the release-mode wraparound of
`current_time - 1` at `current_time = 0`. -/
def counts_to_anom (total current : FP) (current_time : ℕ) : FP :=
  let current_mean := total.div (natF current_time)
  let sqerr := (float_max (FP.fin 0) (current.sub current_mean)).powi 2
  (sqerr.div current_mean).add
    (sqerr.div (current_mean.mul (float_max (FP.fin 1) (natF (u64sub1 current_time)))))

/-- Construction parameters of the decayed variant (`MidasRParams`). -/
structure MidasRParams where
  rows : ℕ
  buckets : ℕ
  m_value : ℕ
  alpha : FP
deriving DecidableEq

/-- Full state of the decayed variant (`MidasR`). -/
structure MidasRState where
  current_time : ℕ
  alpha : FP
  current_count : EdgeHash
  total_count : EdgeHash
  source_score : NodeHash
  dest_score : NodeHash
  source_total : NodeHash
  dest_total : NodeHash
deriving DecidableEq

namespace MidasR

/-- The source's `MidasR::new`, with its fixed internal seeds. -/
def new (p : MidasRParams) : MidasRState :=
  let dumb_seed := 538
  { current_time := 0
    alpha := p.alpha
    current_count := EdgeHash.new p.rows p.buckets p.m_value (dumb_seed + 1)
    total_count := EdgeHash.new p.rows p.buckets p.m_value (dumb_seed + 2)
    source_score := NodeHash.new p.rows p.buckets (dumb_seed + 3)
    dest_score := NodeHash.new p.rows p.buckets (dumb_seed + 4)
    source_total := NodeHash.new p.rows p.buckets (dumb_seed + 5)
    dest_total := NodeHash.new p.rows p.buckets (dumb_seed + 6) }

end MidasR

/-- The maximised anomaly statistic computed inside `MidasR::query`,
before the final `ln_1p` (the operand order of the two `float_max`
applications is the source's). -/
def MidasRState.queryPre (s : MidasRState) (source dest : ℕ) : FP :=
  let current_score := counts_to_anom
    (s.total_count.count source dest) (s.current_count.count source dest) s.current_time
  let current_score_source := counts_to_anom
    (s.source_total.count source) (s.source_score.count source) s.current_time
  let current_score_dest := counts_to_anom
    (s.dest_total.count dest) (s.dest_score.count dest) s.current_time
  float_max (float_max current_score_source current_score_dest) current_score

/-- Model of an `f64` score once `ln_1p` has been applied: same shape as
`FP` with real payloads. -/
inductive FR : Type where
  | nan : FR
  | pinf : FR
  | ninf : FR
  | fin : ℝ → FR

/-- Embedding of the exact float domain into the real-payload domain. -/
def FR.ofFP : FP → FR
  | .nan => .nan
  | .pinf => .pinf
  | .ninf => .ninf
  | .fin q => .fin (q : ℝ)

/-- IEEE `f64::ln_1p` on the real-payload domain (`ln_1p(-1) = -inf`,
arguments below `-1` give NaN; exact, no rounding). -/
noncomputable def FR.ln1p : FR → FR
  | .nan => .nan
  | .pinf => .pinf
  | .ninf => .nan
  | .fin r => if -1 < r then .fin (Real.log (1 + r)) else if r = -1 then .ninf else .nan

/-- IEEE `<` on the real-payload domain: comparisons with NaN are false. -/
def FR.lt : FR → FR → Prop
  | .nan, _ => False
  | .pinf, _ => False
  | .ninf, .nan => False
  | .ninf, .pinf => True
  | .ninf, .ninf => False
  | .ninf, .fin _ => True
  | .fin _, .nan => False
  | .fin _, .pinf => True
  | .fin _, .ninf => False
  | .fin a, .fin b => a < b

/-- The source's `MidasR::query`: `ln_1p` of the maximised statistic. -/
noncomputable def MidasRState.query (s : MidasRState) (source dest : ℕ) : FR :=
  FR.ln1p (FR.ofFP (s.queryPre source dest))

/-- State transition of `MidasR::insert`: `none` models the panic of the
`assert!(self.current_time <= time)`; otherwise the decay step (when time
advances) followed by the six sketch insertions. -/
def MidasRState.insertStep (s : MidasRState) (e : ℕ × ℕ × ℕ) : Option MidasRState :=
  let source := e.1
  let dest := e.2.1
  let time := e.2.2
  if s.current_time ≤ time then
    let s1 :=
      if s.current_time < time then
        let time_delta := time - s.current_time
        let total_decay := s.alpha.powi (u64AsI32 time_delta)
        { s with
          current_count := s.current_count.lower total_decay
          source_score := s.source_score.lower total_decay
          dest_score := s.dest_score.lower total_decay
          current_time := time }
      else s
    some { s1 with
      current_count := s1.current_count.insert source dest (FP.fin 1)
      total_count := s1.total_count.insert source dest (FP.fin 1)
      source_score := s1.source_score.insert source (FP.fin 1)
      dest_score := s1.dest_score.insert dest (FP.fin 1)
      source_total := s1.source_total.insert source (FP.fin 1)
      dest_total := s1.dest_total.insert dest (FP.fin 1) }
  else none

/-- The source's `MidasR::insert`: the state transition paired with the
score the call returns (`self.query(source, dest)` on the new state). -/
noncomputable def MidasRState.insert (s : MidasRState) (e : ℕ × ℕ × ℕ) :
    Option (FR × MidasRState) :=
  (s.insertStep e).map (fun s1 => (s1.query e.1 e.2.1, s1))

/-- Runs a list of insert events through the decayed detector;
`none` once any insert panics. -/
def MidasR.run : MidasRState → List (ℕ × ℕ × ℕ) → Option MidasRState
  | s, [] => some s
  | s, e :: rest =>
    match s.insertStep e with
    | some s1 => MidasR.run s1 rest
    | none => none

/-- The sequence of scores returned by the inserts of a run of the
decayed detector (truncated at a panic). -/
noncomputable def MidasR.scores : MidasRState → List (ℕ × ℕ × ℕ) → List FR
  | _, [] => []
  | s, e :: rest =>
    match s.insertStep e with
    | some s1 => s1.query e.1 e.2.1 :: MidasR.scores s1 rest
    | none => []

/-- A state of the decayed detector reachable from some construction by
some sequence of successful inserts. -/
def MidasR.Reachable (s : MidasRState) : Prop :=
  ∃ p evts, MidasR.run (MidasR.new p) evts = some s

/-- Construction parameters of the fixed-window variant (`MidasParams`). -/
structure MidasParams where
  rows : ℕ
  buckets : ℕ
  m_value : ℕ
deriving DecidableEq

/-- Full state of the fixed-window variant (`Midas`). -/
structure MidasState where
  current_time : ℕ
  current_count : EdgeHash
  total_count : EdgeHash
deriving DecidableEq

namespace Midas

/-- The source's `Midas::new`, with its fixed internal seeds. -/
def new (p : MidasParams) : MidasState :=
  let dumb_seed := 39
  { current_time := 0
    current_count := EdgeHash.new p.rows p.buckets p.m_value (dumb_seed + 1)
    total_count := EdgeHash.new p.rows p.buckets p.m_value (dumb_seed + 2) }

end Midas

/-- The source's `Midas::query`.  Mean and squared error are computed on
the signed difference; `current_time - 1` wraps at `current_time = 0`
(release semantics). -/
def MidasState.query (s : MidasState) (source dest : ℕ) : FP :=
  let current_mean := (s.total_count.count source dest).div (natF s.current_time)
  let sqerr := ((s.current_count.count source dest).sub current_mean).powi 2
  if s.current_time = 1 then FP.fin 0
  else (sqerr.div current_mean).add
    (sqerr.div (current_mean.mul (natF (u64sub1 s.current_time))))

/-- State transition of `Midas::insert`: `none` models the panic of the
assert; when time advances the current-window sketch is cleared. -/
def MidasState.insertStep (s : MidasState) (e : ℕ × ℕ × ℕ) : Option MidasState :=
  let source := e.1
  let dest := e.2.1
  let time := e.2.2
  if s.current_time ≤ time then
    let s1 :=
      if s.current_time < time then
        { s with current_count := s.current_count.clear, current_time := time }
      else s
    some { s1 with
      current_count := s1.current_count.insert source dest (FP.fin 1)
      total_count := s1.total_count.insert source dest (FP.fin 1) }
  else none

/-- The source's `Midas::insert`: the state transition paired with the
returned score. -/
def MidasState.insert (s : MidasState) (e : ℕ × ℕ × ℕ) : Option (FP × MidasState) :=
  (s.insertStep e).map (fun s1 => (s1.query e.1 e.2.1, s1))

/-- Runs a list of insert events through the fixed-window detector. -/
def Midas.run : MidasState → List (ℕ × ℕ × ℕ) → Option MidasState
  | s, [] => some s
  | s, e :: rest =>
    match s.insertStep e with
    | some s1 => Midas.run s1 rest
    | none => none

/-- The sequence of scores returned by the inserts of a run of the
fixed-window detector. -/
def Midas.scores : MidasState → List (ℕ × ℕ × ℕ) → List FP
  | _, [] => []
  | s, e :: rest =>
    match s.insertStep e with
    | some s1 => s1.query e.1 e.2.1 :: Midas.scores s1 rest
    | none => []

/-- A state of the fixed-window detector reachable from some construction
by some sequence of successful inserts. -/
def Midas.Reachable (s : MidasState) : Prop :=
  ∃ p evts, Midas.run (Midas.new p) evts = some s

/-! Basic facts used across the claims. -/

theorem Row.hash_eq_mod (r : Row) (m_value source dest : ℕ) :
    r.hash m_value source dest =
      (wadd (wmul (wadd (wmul m_value dest) source) r.a) r.b) % r.buckets.length := by
  unfold Row.hash Row.num_buckets
  simp

/-- Decay, clearing and insertion do not change a row's hash function. -/
theorem Row.hash_lower (r : Row) (alpha : FP) (m_value source dest : ℕ) :
    (r.lower alpha).hash m_value source dest = r.hash m_value source dest := by
  simp [Row.hash_eq_mod, Row.lower]

theorem Row.hash_clear (r : Row) (m_value source dest : ℕ) :
    (r.clear).hash m_value source dest = r.hash m_value source dest := by
  simp [Row.hash_eq_mod, Row.clear]

theorem Row.hash_insert (r : Row) (m s d m_value source dest : ℕ) (w : FP) :
    (r.insert m s d w).hash m_value source dest = r.hash m_value source dest := by
  simp [Row.hash_eq_mod, Row.insert]

theorem Row.hash_lt (r : Row) (hB : 1 ≤ r.buckets.length) (m_value source dest : ℕ) :
    r.hash m_value source dest < r.buckets.length := by
  rw [Row.hash_eq_mod]
  exact Nat.mod_lt _ hB

/-- C7: for every row with a nonempty bucket array, `Row::hash` computes
`((m_value * dest + source) * a + b)` in wrapping 64-bit unsigned
arithmetic reduced modulo the bucket count, and the result is always a
valid bucket index below the bucket count, so the bucket-array accesses
performed by `insert` and `count` are in bounds. -/
theorem C7_hash_wrapping_in_bounds (r : Row) (hB : 1 ≤ r.buckets.length)
    (m_value source dest : ℕ) :
    r.hash m_value source dest =
      ((m_value * dest + source) * r.a + r.b) % 2 ^ 64 % r.buckets.length ∧
    r.hash m_value source dest < r.buckets.length := by
  refine ⟨?_, Row.hash_lt r hB m_value source dest⟩
  rw [Row.hash_eq_mod]
  unfold wadd wmul
  congr 1
  simp [Nat.add_mod, Nat.mul_mod]

/-- Witness for C7 at a concrete row and key. -/
theorem C7_hash_wrapping_in_bounds_witness :
    (Row.mk 1 0 [FP.fin 0, FP.fin 0]).hash 3 4 5 =
      ((3 * 5 + 4) * 1 + 0) % 2 ^ 64 % 2 ∧
    (Row.mk 1 0 [FP.fin 0, FP.fin 0]).hash 3 4 5 < 2 :=
  C7_hash_wrapping_in_bounds (Row.mk 1 0 [FP.fin 0, FP.fin 0]) (by decide) 3 4 5

theorem MidasRState.insertStep_time_r {s s1 : MidasRState} {e : ℕ × ℕ × ℕ}
    (h : s.insertStep e = some s1) : s.current_time ≤ s1.current_time := by
  unfold MidasRState.insertStep at h
  by_cases hle : s.current_time ≤ e.2.2
  · by_cases hlt : s.current_time < e.2.2
    · simp [hle, hlt] at h
      rw [← h]
      exact le_of_lt hlt
    · simp [hle, hlt] at h
      rw [← h]
  · simp [hle] at h

theorem MidasState.insertStep_time_m {s s1 : MidasState} {e : ℕ × ℕ × ℕ}
    (h : s.insertStep e = some s1) : s.current_time ≤ s1.current_time := by
  unfold MidasState.insertStep at h
  by_cases hle : s.current_time ≤ e.2.2
  · by_cases hlt : s.current_time < e.2.2
    · simp [hle, hlt] at h
      rw [← h]
      exact le_of_lt hlt
    · simp [hle, hlt] at h
      rw [← h]
  · simp [hle] at h

theorem MidasRState.insertStep_none_iff_r (s : MidasRState) (e : ℕ × ℕ × ℕ) :
    s.insertStep e = none ↔ e.2.2 < s.current_time := by
  unfold MidasRState.insertStep
  by_cases hle : s.current_time ≤ e.2.2 <;> simp [hle] <;> omega

theorem MidasState.insertStep_none_iff_m (s : MidasState) (e : ℕ × ℕ × ℕ) :
    s.insertStep e = none ↔ e.2.2 < s.current_time := by
  unfold MidasState.insertStep
  by_cases hle : s.current_time ≤ e.2.2 <;> simp [hle] <;> omega

theorem MidasR.run_time_r {s s1 : MidasRState} {evts : List (ℕ × ℕ × ℕ)}
    (h : MidasR.run s evts = some s1) : s.current_time ≤ s1.current_time := by
  induction evts generalizing s with
  | nil => simp [MidasR.run] at h; rw [h]
  | cons e rest ih =>
    rw [MidasR.run] at h
    cases heq : s.insertStep e with
    | none => rw [heq] at h; exact absurd h (by simp)
    | some s2 =>
      rw [heq] at h
      exact le_trans (MidasRState.insertStep_time_r heq) (ih h)

theorem Midas.run_time_m {s s1 : MidasState} {evts : List (ℕ × ℕ × ℕ)}
    (h : Midas.run s evts = some s1) : s.current_time ≤ s1.current_time := by
  induction evts generalizing s with
  | nil => simp [Midas.run] at h; rw [h]
  | cons e rest ih =>
    rw [Midas.run] at h
    cases heq : s.insertStep e with
    | none => rw [heq] at h; exact absurd h (by simp)
    | some s2 =>
      rw [heq] at h
      exact le_trans (MidasState.insertStep_time_m heq) (ih h)

/-- C4: for both variants, an insert panics (steps to `none`) exactly when
the inserted time is below the detector's current time, succeeds whenever
it is greater or equal, and the current time never decreases, neither
across one successful insert nor across a whole run. -/
theorem C4_insert_time_contract :
    (∀ (s : MidasRState) (e : ℕ × ℕ × ℕ),
      (s.insertStep e = none ↔ e.2.2 < s.current_time) ∧
      ∀ s1, s.insertStep e = some s1 → s.current_time ≤ s1.current_time) ∧
    (∀ (s : MidasState) (e : ℕ × ℕ × ℕ),
      (s.insertStep e = none ↔ e.2.2 < s.current_time) ∧
      ∀ s1, s.insertStep e = some s1 → s.current_time ≤ s1.current_time) ∧
    (∀ (s s1 : MidasRState) (evts : List (ℕ × ℕ × ℕ)),
      MidasR.run s evts = some s1 → s.current_time ≤ s1.current_time) ∧
    (∀ (s s1 : MidasState) (evts : List (ℕ × ℕ × ℕ)),
      Midas.run s evts = some s1 → s.current_time ≤ s1.current_time) := by
  exact ⟨fun s e => ⟨MidasRState.insertStep_none_iff_r s e,
           fun s1 h => MidasRState.insertStep_time_r h⟩,
         fun s e => ⟨MidasState.insertStep_none_iff_m s e,
           fun s1 h => MidasState.insertStep_time_m h⟩,
         fun s s1 evts h => MidasR.run_time_r h,
         fun s s1 evts h => Midas.run_time_m h⟩

/-- Witness for C4 at a concrete state and event. -/
theorem C4_insert_time_contract_witness :
    ((MidasR.new ⟨1, 2, 3, FP.fin (3/5)⟩).insertStep (1, 2, 0) = none ↔
      (0 : ℕ) < (MidasR.new ⟨1, 2, 3, FP.fin (3/5)⟩).current_time) ∧
    ∀ s1, (MidasR.new ⟨1, 2, 3, FP.fin (3/5)⟩).insertStep (1, 2, 0) = some s1 →
      (MidasR.new ⟨1, 2, 3, FP.fin (3/5)⟩).current_time ≤ s1.current_time :=
  C4_insert_time_contract.1 (MidasR.new ⟨1, 2, 3, FP.fin (3/5)⟩) (1, 2, 0)

/-- C9: two detector instances of the same variant, built with identical
parameters (and hence identical internally seeded sketch geometry), fed
identical event lists, produce identical score sequences and identical
sketch states after every step. -/
theorem C9_determinism :
    (∀ (p1 p2 : MidasRParams) (e1 e2 : List (ℕ × ℕ × ℕ)), p1 = p2 → e1 = e2 →
      MidasR.scores (MidasR.new p1) e1 = MidasR.scores (MidasR.new p2) e2 ∧
      ∀ n, MidasR.run (MidasR.new p1) (e1.take n) = MidasR.run (MidasR.new p2) (e2.take n)) ∧
    (∀ (p1 p2 : MidasParams) (e1 e2 : List (ℕ × ℕ × ℕ)), p1 = p2 → e1 = e2 →
      Midas.scores (Midas.new p1) e1 = Midas.scores (Midas.new p2) e2 ∧
      ∀ n, Midas.run (Midas.new p1) (e1.take n) = Midas.run (Midas.new p2) (e2.take n)) := by
  constructor <;> rintro p1 p2 e1 e2 rfl rfl <;> exact ⟨rfl, fun n => rfl⟩

/-- Witness for C9 at concrete parameters and a concrete event list. -/
theorem C9_determinism_witness :
    MidasR.scores (MidasR.new ⟨2, 3, 5, FP.fin (3/5)⟩) [(1, 2, 1), (1, 2, 2)] =
      MidasR.scores (MidasR.new ⟨2, 3, 5, FP.fin (3/5)⟩) [(1, 2, 1), (1, 2, 2)] ∧
    ∀ n, MidasR.run (MidasR.new ⟨2, 3, 5, FP.fin (3/5)⟩) ([(1, 2, 1), (1, 2, 2)].take n) =
      MidasR.run (MidasR.new ⟨2, 3, 5, FP.fin (3/5)⟩) ([(1, 2, 1), (1, 2, 2)].take n) :=
  C9_determinism.1 _ _ _ _ rfl rfl

/-! Facts about cleared sketches, for the fixed-window reset claim. -/

theorem float_min_fin_fin (a b : ℚ) :
    float_min (FP.fin a) (FP.fin b) = FP.fin (min a b) := by
  unfold float_min FP.ble
  by_cases h : a ≤ b <;> simp [h, min_def]

theorem foldl_min_zero_acc (xs : List FP) (h : ∀ x ∈ xs, x = FP.fin 0) :
    xs.foldl float_min (FP.fin 0) = FP.fin 0 := by
  induction xs with
  | nil => rfl
  | cons x rest ih =>
    have hx := h x (by simp)
    subst hx
    rw [List.foldl_cons, float_min_fin_fin, min_self]
    exact ih (fun y hy => h y (by simp [hy]))

theorem foldl_min_all_zero (l : List FP) (h : ∀ x ∈ l, x = FP.fin 0) (hne : l ≠ []) :
    l.foldl float_min FLOAT_MAX = FP.fin 0 := by
  cases l with
  | nil => exact absurd rfl hne
  | cons x xs =>
    have hx := h x (by simp)
    subst hx
    rw [List.foldl_cons]
    have h1 : float_min FLOAT_MAX (FP.fin 0) = FP.fin 0 := by
      unfold FLOAT_MAX
      rw [float_min_fin_fin]
      congr 1
      rw [min_eq_right]
      positivity
    rw [h1]
    exact foldl_min_zero_acc xs (fun y hy => h y (by simp [hy]))

theorem getD_map_zero (l : List FP) (i : ℕ) :
    (l.map (fun _ => FP.fin 0)).getD i (FP.fin 0) = FP.fin 0 := by
  by_cases h : i < l.length
  · rw [List.getD_eq_getElem _ _ (by simpa using h)]
    simp
  · rw [List.getD_eq_default _ _ (by simpa using Nat.le_of_not_lt h)]

theorem Row.clear_insert_count_ne (r : Row) (m src dst a b : ℕ) (w : FP)
    (hcol : r.hash m src dst ≠ r.hash m a b) :
    ((r.clear).insert m src dst w).count m a b = FP.fin 0 := by
  unfold Row.count
  rw [Row.hash_insert, Row.hash_clear]
  show (((r.clear).buckets.set ((r.clear).hash m src dst) _)).getD (r.hash m a b) _ = _
  rw [Row.hash_clear]
  rw [List.getD_eq_getElem?_getD, List.getElem?_set_ne hcol, ← List.getD_eq_getElem?_getD]
  exact getD_map_zero r.buckets _

theorem EdgeHash.count_clear_insert_ne (h : EdgeHash) (src dst a b : ℕ)
    (hrows : h.rows ≠ [])
    (hcol : ∀ r ∈ h.rows, r.hash h.m_value src dst ≠ r.hash h.m_value a b) :
    ((h.clear).insert src dst (FP.fin 1)).count a b = FP.fin 0 := by
  unfold EdgeHash.count EdgeHash.insert EdgeHash.clear
  simp only [List.map_map]
  apply foldl_min_all_zero
  · intro x hx
    obtain ⟨r, hr, rfl⟩ := List.mem_map.1 hx
    exact Row.clear_insert_count_ne r h.m_value src dst a b (FP.fin 1) (hcol r hr)
  · simpa using hrows

/-- C5: for the fixed-window variant, an insert with a strictly advanced
time clears every counter of the current-window sketch to zero before the
new event is counted (the resulting state is exactly clear-then-insert,
while the total sketch only receives the ordinary insert and is untouched
by the reset), and a key that does not collide with the inserted pair in
any row then has current-window estimate exactly zero. -/
theorem C5_midas_hard_reset (s : MidasState) (src dst time ka kb : ℕ)
    (ht : s.current_time < time) :
    s.insertStep (src, dst, time) =
      some { current_time := time,
             current_count := (s.current_count.clear).insert src dst (FP.fin 1),
             total_count := s.total_count.insert src dst (FP.fin 1) } ∧
    (∀ r ∈ (s.current_count.clear).rows, ∀ v ∈ r.buckets, v = FP.fin 0) ∧
    (s.current_count.rows ≠ [] →
      (∀ r ∈ s.current_count.rows,
        r.hash s.current_count.m_value src dst ≠ r.hash s.current_count.m_value ka kb) →
      ((s.current_count.clear).insert src dst (FP.fin 1)).count ka kb = FP.fin 0) := by
  refine ⟨?_, ?_, ?_⟩
  · unfold MidasState.insertStep
    simp [le_of_lt ht, ht]
  · intro r hr v hv
    unfold EdgeHash.clear at hr
    obtain ⟨r0, _, rfl⟩ := List.mem_map.1 hr
    unfold Row.clear at hv
    obtain ⟨v0, _, rfl⟩ := List.mem_map.1 hv
    rfl
  · intro hrows hcol
    exact EdgeHash.count_clear_insert_ne s.current_count src dst ka kb hrows hcol

/-- Witness for C5 at a concrete state, event and non-colliding key. -/
theorem C5_midas_hard_reset_witness :
    (Midas.new ⟨1, 5, 7⟩).insertStep (1, 2, 3) =
      some { current_time := 3,
             current_count :=
               ((Midas.new ⟨1, 5, 7⟩).current_count.clear).insert 1 2 (FP.fin 1),
             total_count := (Midas.new ⟨1, 5, 7⟩).total_count.insert 1 2 (FP.fin 1) } ∧
    (∀ r ∈ ((Midas.new ⟨1, 5, 7⟩).current_count.clear).rows, ∀ v ∈ r.buckets, v = FP.fin 0) ∧
    ((Midas.new ⟨1, 5, 7⟩).current_count.rows ≠ [] →
      (∀ r ∈ (Midas.new ⟨1, 5, 7⟩).current_count.rows,
        r.hash (Midas.new ⟨1, 5, 7⟩).current_count.m_value 1 2 ≠
          r.hash (Midas.new ⟨1, 5, 7⟩).current_count.m_value 3 4) →
      (((Midas.new ⟨1, 5, 7⟩).current_count.clear).insert 1 2 (FP.fin 1)).count 3 4 = FP.fin 0) :=
  C5_midas_hard_reset (Midas.new ⟨1, 5, 7⟩) 1 2 3 3 4 (by decide)

/-! Count-min lower-bound development. -/

/-- Pure insertion workload on an edge sketch: one weight-1 insert per
listed pair, in order. -/
def EdgeHash.insertAll (h : EdgeHash) (evts : List (ℕ × ℕ)) : EdgeHash :=
  evts.foldl (fun h e => h.insert e.1 e.2 (FP.fin 1)) h

theorem EdgeHash.insertAll_rows (evts : List (ℕ × ℕ)) :
    ∀ h : EdgeHash,
      (h.insertAll evts).m_value = h.m_value ∧
      (h.insertAll evts).rows =
        h.rows.map (fun r => evts.foldl (fun r e => r.insert h.m_value e.1 e.2 (FP.fin 1)) r) := by
  induction evts with
  | nil => intro h; simp [EdgeHash.insertAll]
  | cons e rest ih =>
    intro h
    have step : h.insertAll (e :: rest) = (h.insert e.1 e.2 (FP.fin 1)).insertAll rest := rfl
    obtain ⟨hm, hr⟩ := ih (h.insert e.1 e.2 (FP.fin 1))
    refine ⟨by rw [step, hm]; rfl, ?_⟩
    rw [step, hr]
    show (h.rows.map _).map _ = _
    rw [List.map_map]
    rfl

theorem getD_replicate (n i : ℕ) :
    (List.replicate n (FP.fin 0)).getD i (FP.fin 0) = FP.fin 0 := by
  by_cases h : i < n
  · rw [List.getD_eq_getElem _ _ (by simpa using h)]
    simp
  · rw [List.getD_eq_default _ _ (by simpa using Nat.le_of_not_lt h)]

theorem Row.length_insert (r : Row) (m s d : ℕ) (w : FP) :
    (r.insert m s d w).buckets.length = r.buckets.length := by
  simp [Row.insert]

theorem Row.count_insert_same_hash (r : Row) (m s d ps pd : ℕ) {q : ℚ}
    (hlen : 1 ≤ r.buckets.length)
    (hcase : r.hash m s d = r.hash m ps pd)
    (hq : r.count m ps pd = FP.fin q) :
    (r.insert m s d (FP.fin 1)).count m ps pd = FP.fin (q + 1) := by
  unfold Row.count at hq ⊢
  rw [Row.hash_insert]
  show ((r.buckets.set (r.hash m s d) _)).getD (r.hash m ps pd) _ = _
  rw [← hcase, List.getD_eq_getElem?_getD,
    List.getElem?_set_self (Row.hash_lt r hlen m s d), Option.getD_some, hcase, hq]
  rfl

theorem Row.count_insert_other_hash (r : Row) (m s d ps pd : ℕ)
    (hcase : r.hash m s d ≠ r.hash m ps pd) :
    (r.insert m s d (FP.fin 1)).count m ps pd = r.count m ps pd := by
  unfold Row.count
  rw [Row.hash_insert]
  show ((r.buckets.set (r.hash m s d) _)).getD (r.hash m ps pd) _ = _
  rw [List.getD_eq_getElem?_getD, List.getElem?_set_ne hcase, ← List.getD_eq_getElem?_getD]

theorem Row.foldl_insert_count (m : ℕ) (p : ℕ × ℕ) (evts : List (ℕ × ℕ)) :
    ∀ (r : Row) (c : ℚ), 1 ≤ r.buckets.length →
      (∃ q, r.count m p.1 p.2 = FP.fin q ∧ c ≤ q) →
      ∃ q, (evts.foldl (fun r e => r.insert m e.1 e.2 (FP.fin 1)) r).count m p.1 p.2 = FP.fin q ∧
        c + (evts.count p : ℚ) ≤ q := by
  induction evts with
  | nil =>
    rintro r c hlen ⟨q, hq, hcq⟩
    exact ⟨q, hq, by simp; linarith⟩
  | cons e rest ih =>
    rintro r c hlen ⟨q, hq, hcq⟩
    rw [List.foldl_cons]
    have hlen' : 1 ≤ (r.insert m e.1 e.2 (FP.fin 1)).buckets.length := by
      rw [Row.length_insert]; exact hlen
    by_cases hcase : r.hash m e.1 e.2 = r.hash m p.1 p.2
    · have hnew := Row.count_insert_same_hash r m e.1 e.2 p.1 p.2 hlen hcase hq
      by_cases hep : e = p
      · obtain ⟨q1, hq1, hle1⟩ := ih (r.insert m e.1 e.2 (FP.fin 1)) (c + 1) hlen'
          ⟨q + 1, hnew, by linarith⟩
        refine ⟨q1, hq1, ?_⟩
        rw [List.count_cons, if_pos (by simp [hep])]
        push_cast
        linarith
      · obtain ⟨q1, hq1, hle1⟩ := ih (r.insert m e.1 e.2 (FP.fin 1)) c hlen'
          ⟨q + 1, hnew, by linarith⟩
        refine ⟨q1, hq1, ?_⟩
        rw [List.count_cons, if_neg (by simp [hep])]
        push_cast
        linarith
    · have hnew := Row.count_insert_other_hash r m e.1 e.2 p.1 p.2 hcase
      have hep : e ≠ p := by
        rintro rfl
        exact hcase rfl
      obtain ⟨q1, hq1, hle1⟩ := ih (r.insert m e.1 e.2 (FP.fin 1)) c hlen' ⟨q, by rw [hnew, hq], hcq⟩
      refine ⟨q1, hq1, ?_⟩
      rw [List.count_cons, if_neg (by simp [hep])]
      push_cast
      linarith

theorem foldl_min_fin_bound (n : ℚ) (l : List FP)
    (hl : ∀ x ∈ l, ∃ q, x = FP.fin q ∧ n ≤ q) :
    ∀ a : ℚ, n ≤ a → ∃ q, l.foldl float_min (FP.fin a) = FP.fin q ∧ n ≤ q := by
  induction l with
  | nil => exact fun a ha => ⟨a, rfl, ha⟩
  | cons x xs ih =>
    intro a ha
    obtain ⟨qx, rfl, hqx⟩ := hl x (by simp)
    rw [List.foldl_cons, float_min_fin_fin]
    exact ih (fun y hy => hl y (by simp [hy])) _ (le_min ha hqx)

theorem mkRows_buckets (buckets : ℕ) :
    ∀ (n : ℕ) (rng : Rng) (r : Row), r ∈ mkRows n buckets rng →
      r.buckets = List.replicate buckets (FP.fin 0) := by
  intro n
  induction n with
  | zero => intro rng r hr; simp [mkRows] at hr
  | succ k ih =>
    intro rng r hr
    rw [mkRows] at hr
    rcases List.mem_cons.1 hr with rfl | h
    · rfl
    · exact ih _ r h

/-- C6: for every insertion workload on a freshly constructed edge sketch
and every pair, the count-min estimate (minimum across rows) is at least
the true number of inserts of that pair and at least zero, and every
single row's count is itself at least the true number (rows over-count
under collisions, never under-count).  The workload size must not exceed
the largest float, where the idealised model and saturating `f64`
arithmetic part ways. -/
theorem C6_count_min_lower_bound (rows buckets m_value seed : ℕ) (evts : List (ℕ × ℕ))
    (p : ℕ × ℕ) (hB : 2 ≤ buckets)
    (hn : ((evts.count p : ℚ)) ≤ (2 : ℚ) ^ 1024 - 2 ^ 971) :
    FP.ble (FP.fin ((evts.count p : ℚ)))
      (((EdgeHash.new rows buckets m_value seed).insertAll evts).count p.1 p.2) = true ∧
    FP.ble (FP.fin 0)
      (((EdgeHash.new rows buckets m_value seed).insertAll evts).count p.1 p.2) = true ∧
    ∀ r ∈ ((EdgeHash.new rows buckets m_value seed).insertAll evts).rows,
      FP.ble (FP.fin ((evts.count p : ℚ))) (r.count m_value p.1 p.2) = true := by
  obtain ⟨hm, hrows⟩ := EdgeHash.insertAll_rows evts (EdgeHash.new rows buckets m_value seed)
  have hmv : (EdgeHash.new rows buckets m_value seed).m_value = m_value := rfl
  have hfresh : ∀ r0 ∈ (EdgeHash.new rows buckets m_value seed).rows,
      r0.buckets = List.replicate buckets (FP.fin 0) :=
    fun r0 hr0 => mkRows_buckets buckets rows _ r0 hr0
  -- every row of the loaded sketch counts at least the true count
  have hrowbound : ∀ r ∈ ((EdgeHash.new rows buckets m_value seed).insertAll evts).rows,
      ∃ q, r.count m_value p.1 p.2 = FP.fin q ∧ ((evts.count p : ℚ)) ≤ q := by
    intro r hr
    rw [hrows] at hr
    obtain ⟨r0, hr0, rfl⟩ := List.mem_map.1 hr
    have hbk := hfresh r0 hr0
    have hlen : 1 ≤ r0.buckets.length := by
      rw [hbk, List.length_replicate]; omega
    have hstart : ∃ q, r0.count m_value p.1 p.2 = FP.fin q ∧ (0 : ℚ) ≤ q := by
      refine ⟨0, ?_, le_refl 0⟩
      unfold Row.count
      rw [hbk]
      exact getD_replicate _ _
    rw [hmv]
    obtain ⟨q, hq, hle⟩ := Row.foldl_insert_count m_value p evts r0 0 hlen hstart
    exact ⟨q, hq, by linarith⟩
  refine ⟨?_, ?_, fun r hr => ?_⟩
  · unfold EdgeHash.count
    rw [hm, hmv]
    obtain ⟨q, hq, hle⟩ := foldl_min_fin_bound ((evts.count p : ℚ))
      (((EdgeHash.new rows buckets m_value seed).insertAll evts).rows.map
        (fun r => r.count m_value p.1 p.2))
      (by
        intro x hx
        obtain ⟨r, hr, rfl⟩ := List.mem_map.1 hx
        exact hrowbound r hr)
      ((2 : ℚ) ^ 1024 - 2 ^ 971) hn
    rw [FLOAT_MAX, hq]
    simpa [FP.ble] using hle
  · unfold EdgeHash.count
    rw [hm, hmv]
    obtain ⟨q, hq, hle⟩ := foldl_min_fin_bound ((evts.count p : ℚ))
      (((EdgeHash.new rows buckets m_value seed).insertAll evts).rows.map
        (fun r => r.count m_value p.1 p.2))
      (by
        intro x hx
        obtain ⟨r, hr, rfl⟩ := List.mem_map.1 hx
        exact hrowbound r hr)
      ((2 : ℚ) ^ 1024 - 2 ^ 971) hn
    rw [FLOAT_MAX, hq]
    have : (0 : ℚ) ≤ q := le_trans (by positivity) hle
    simpa [FP.ble] using this
  · obtain ⟨q, hq, hle⟩ := hrowbound r hr
    rw [hq]
    simpa [FP.ble] using hle

/-- Witness for C6 at a concrete sketch and workload. -/
theorem C6_count_min_lower_bound_witness :
    FP.ble (FP.fin ((([(1, 2), (1, 2), (3, 4)] : List (ℕ × ℕ)).count (1, 2) : ℚ)))
      (((EdgeHash.new 2 5 7 11).insertAll [(1, 2), (1, 2), (3, 4)]).count 1 2) = true ∧
    FP.ble (FP.fin 0)
      (((EdgeHash.new 2 5 7 11).insertAll [(1, 2), (1, 2), (3, 4)]).count 1 2) = true ∧
    ∀ r ∈ ((EdgeHash.new 2 5 7 11).insertAll [(1, 2), (1, 2), (3, 4)]).rows,
      FP.ble (FP.fin ((([(1, 2), (1, 2), (3, 4)] : List (ℕ × ℕ)).count (1, 2) : ℚ)))
        (r.count 7 1 2) = true :=
  C6_count_min_lower_bound 2 5 7 11 [(1, 2), (1, 2), (3, 4)] (1, 2) (by norm_num)
    (by norm_num)

/-! Query-formula refinement development. -/

theorem FP.powi_two (x : FP) : x.powi 2 = x.mul (x.mul (FP.fin 1)) := by
  unfold FP.powi
  rw [if_pos (by norm_num)]
  rfl

theorem float_max_fin_fin (a b : ℚ) :
    float_max (FP.fin a) (FP.fin b) = FP.fin (max a b) := by
  unfold float_max FP.ble
  by_cases h : b ≤ a
  · simp [h, max_eq_left h]
  · simp [h, max_eq_right (le_of_lt (not_le.1 h))]

theorem FP.div_fin_zero_cases (x : FP) :
    x.div (FP.fin 0) = FP.pinf ∨ x.div (FP.fin 0) = FP.ninf ∨ x.div (FP.fin 0) = FP.nan := by
  cases x with
  | nan => right; right; rfl
  | pinf => left; simp [FP.div]
  | ninf => right; left; simp [FP.div]
  | fin a =>
    rcases lt_trichotomy a 0 with h | h | h
    · right; left; simp [FP.div, h, not_lt.2 (le_of_lt h)]
    · right; right; simp [FP.div, h]
    · left; simp [FP.div, h]

/-- The second factor of the fixed-window score is irrelevant once the
mean is non-finite: the whole statistic collapses to NaN. -/
theorem midas_tail_nonfinite (mean current X : FP)
    (hm : mean = FP.pinf ∨ mean = FP.ninf ∨ mean = FP.nan) :
    (((current.sub mean).powi 2).div mean).add
      (((current.sub mean).powi 2).div (mean.mul X)) = FP.nan := by
  rcases hm with rfl | rfl | rfl <;> cases current <;> cases X <;>
    simp [FP.sub, FP.neg, FP.add, FP.powi_two, FP.mul, FP.div] <;>
    split_ifs <;> simp [FP.add, FP.div]

/-- The fixed-window query formula exactly as the specification states
it: zero at `t = 1`, otherwise the two-term statistic over the signed
(unclamped) squared error, with natural-number `t - 1`. -/
def midasQuerySpec (total current : FP) (t : ℕ) : FP :=
  if t = 1 then FP.fin 0
  else
    (((current.sub (total.div (natF t))).powi 2).div (total.div (natF t))).add
      (((current.sub (total.div (natF t))).powi 2).div
        ((total.div (natF t)).mul (FP.fin ((t - 1 : ℕ) : ℚ))))

/-- C2: for every fixed-window detector state with a representable time
and every pair, `Midas::query` returns 0 at time 1 and otherwise the
statistic `sqerr/mean + sqerr/(mean*(t-1))` over the count-min estimates,
with the squared error taken on the signed, unclamped difference. -/
theorem C2_midas_query_formula (s : MidasState) (source dest : ℕ)
    (ht : s.current_time < 2 ^ 64) :
    s.query source dest =
      midasQuerySpec (s.total_count.count source dest) (s.current_count.count source dest)
        s.current_time := by
  unfold MidasState.query midasQuerySpec
  by_cases h1 : s.current_time = 1
  · simp [h1]
  · rw [if_neg h1, if_neg h1]
    by_cases h0 : s.current_time = 0
    · rw [h0]
      have hm : (s.total_count.count source dest).div (natF 0) = FP.pinf ∨
          (s.total_count.count source dest).div (natF 0) = FP.ninf ∨
          (s.total_count.count source dest).div (natF 0) = FP.nan := by
        have := FP.div_fin_zero_cases (s.total_count.count source dest)
        simpa [natF] using this
      rw [midas_tail_nonfinite _ _ _ hm, midas_tail_nonfinite _ _ _ hm]
    · have hu : u64sub1 s.current_time = s.current_time - 1 := by
        unfold u64sub1
        omega
      rw [hu]
      rfl

/-- Witness for C2 at a concrete state. -/
theorem C2_midas_query_formula_witness :
    (Midas.new ⟨1, 5, 7⟩).query 1 2 =
      midasQuerySpec ((Midas.new ⟨1, 5, 7⟩).total_count.count 1 2)
        ((Midas.new ⟨1, 5, 7⟩).current_count.count 1 2) (Midas.new ⟨1, 5, 7⟩).current_time :=
  C2_midas_query_formula (Midas.new ⟨1, 5, 7⟩) 1 2 (by decide)

/-- The positive finite second factor of the decayed score is irrelevant
once the mean is non-finite (the clamped squared error is then zero or
non-finite, and scaling an infinite or NaN denominator by a positive
finite constant changes nothing). -/
theorem midasR_tail_factor (mean current : FP) (c1 c2 : ℚ) (h1 : 0 < c1) (h2 : 0 < c2)
    (hm : mean = FP.pinf ∨ mean = FP.ninf ∨ mean = FP.nan) :
    (((float_max (FP.fin 0) (current.sub mean)).powi 2).div mean).add
      (((float_max (FP.fin 0) (current.sub mean)).powi 2).div (mean.mul (FP.fin c1))) =
    (((float_max (FP.fin 0) (current.sub mean)).powi 2).div mean).add
      (((float_max (FP.fin 0) (current.sub mean)).powi 2).div (mean.mul (FP.fin c2))) := by
  rcases hm with rfl | rfl | rfl <;> cases current <;>
    simp [float_max, FP.ble, FP.sub, FP.neg, FP.add, FP.powi_two, FP.mul, FP.div, h1, h2]

/-- The anomaly formula exactly as the specification states it for the
decayed variant: `sqerr/mean + sqerr/(mean*max(1,t-1))` with
`mean = total/t` and `sqerr = max(0, current-mean)^2`, the `max(1, t-1)`
taken over the natural numbers. -/
def anomSpec (total current : FP) (t : ℕ) : FP :=
  (((float_max (FP.fin 0) (current.sub (total.div (natF t)))).powi 2).div
      (total.div (natF t))).add
    (((float_max (FP.fin 0) (current.sub (total.div (natF t)))).powi 2).div
      ((total.div (natF t)).mul (FP.fin ((max 1 (t - 1) : ℕ) : ℚ))))

/-- The source's `counts_to_anom` agrees with the specification's anomaly
formula at every representable time, including the wrapped `t = 0` case
(where the mean is non-finite and the differing second factors are both
positive and finite, hence irrelevant). -/
theorem counts_to_anom_eq_spec (total current : FP) (t : ℕ) (ht : t < 2 ^ 64) :
    counts_to_anom total current t = anomSpec total current t := by
  unfold counts_to_anom anomSpec
  by_cases h0 : t = 0
  · subst h0
    have hu : u64sub1 0 = 2 ^ 64 - 1 := by
      unfold u64sub1
      omega
    rw [hu]
    have hX : float_max (FP.fin 1) (natF (2 ^ 64 - 1)) = FP.fin (((2 : ℕ) ^ 64 - 1 : ℕ) : ℚ) := by
      show float_max (FP.fin 1) (FP.fin (((2 : ℕ) ^ 64 - 1 : ℕ) : ℚ)) = _
      rw [float_max_fin_fin, max_eq_right (by norm_num)]
    rw [hX]
    have hm := FP.div_fin_zero_cases total
    have hm' : total.div (natF 0) = FP.pinf ∨ total.div (natF 0) = FP.ninf ∨
        total.div (natF 0) = FP.nan := by
      simpa [natF] using hm
    exact midasR_tail_factor _ current (((2 : ℕ) ^ 64 - 1 : ℕ) : ℚ) _ (by norm_num)
      (by norm_num) hm'
  · have hu : u64sub1 t = t - 1 := by
      unfold u64sub1
      omega
    rw [hu]
    have hX : float_max (FP.fin 1) (natF (t - 1)) = FP.fin ((max 1 (t - 1) : ℕ) : ℚ) := by
      show float_max (FP.fin 1) (FP.fin ((t - 1 : ℕ) : ℚ)) = _
      rw [float_max_fin_fin, Nat.cast_max, Nat.cast_one]
    rw [hX]

/-- C1: for every decayed-variant state with a representable time and
every pair, `MidasR::query` returns `ln(1 + max)` of the three
specification-formula anomaly scores, computed from the count-min
estimates of the edge sketches at the pair, the source-node sketches at
the source, and the dest-node sketches at the destination. -/
theorem C1_midasR_query_formula (s : MidasRState) (source dest : ℕ)
    (ht : s.current_time < 2 ^ 64) :
    s.query source dest =
      FR.ln1p (FR.ofFP (float_max
        (float_max
          (anomSpec (s.source_total.count source) (s.source_score.count source) s.current_time)
          (anomSpec (s.dest_total.count dest) (s.dest_score.count dest) s.current_time))
        (anomSpec (s.total_count.count source dest) (s.current_count.count source dest)
          s.current_time))) := by
  unfold MidasRState.query MidasRState.queryPre
  rw [counts_to_anom_eq_spec _ _ _ ht, counts_to_anom_eq_spec _ _ _ ht,
    counts_to_anom_eq_spec _ _ _ ht]

/-- Witness for C1 at a concrete state. -/
theorem C1_midasR_query_formula_witness :
    (MidasR.new ⟨1, 5, 7, FP.fin (3/5)⟩).query 1 2 =
      FR.ln1p (FR.ofFP (float_max
        (float_max
          (anomSpec ((MidasR.new ⟨1, 5, 7, FP.fin (3/5)⟩).source_total.count 1)
            ((MidasR.new ⟨1, 5, 7, FP.fin (3/5)⟩).source_score.count 1)
            (MidasR.new ⟨1, 5, 7, FP.fin (3/5)⟩).current_time)
          (anomSpec ((MidasR.new ⟨1, 5, 7, FP.fin (3/5)⟩).dest_total.count 2)
            ((MidasR.new ⟨1, 5, 7, FP.fin (3/5)⟩).dest_score.count 2)
            (MidasR.new ⟨1, 5, 7, FP.fin (3/5)⟩).current_time))
        (anomSpec ((MidasR.new ⟨1, 5, 7, FP.fin (3/5)⟩).total_count.count 1 2)
          ((MidasR.new ⟨1, 5, 7, FP.fin (3/5)⟩).current_count.count 1 2)
          (MidasR.new ⟨1, 5, 7, FP.fin (3/5)⟩).current_time))) :=
  C1_midasR_query_formula (MidasR.new ⟨1, 5, 7, FP.fin (3/5)⟩) 1 2 (by decide)

/-! First-event-at-time-zero development. -/

theorem foldl_min_const (c : ℚ) (hc : c ≤ (2 : ℚ) ^ 1024 - 2 ^ 971) (l : List FP)
    (h : ∀ x ∈ l, x = FP.fin c) (hne : l ≠ []) :
    l.foldl float_min FLOAT_MAX = FP.fin c := by
  have aux : ∀ xs : List FP, (∀ x ∈ xs, x = FP.fin c) →
      xs.foldl float_min (FP.fin c) = FP.fin c := by
    intro xs hxs
    induction xs with
    | nil => rfl
    | cons x rest ih =>
      have hx := hxs x (by simp)
      subst hx
      rw [List.foldl_cons, float_min_fin_fin, min_self]
      exact ih (fun y hy => hxs y (by simp [hy]))
  cases l with
  | nil => exact absurd rfl hne
  | cons x xs =>
    have hx := h x (by simp)
    subst hx
    rw [List.foldl_cons]
    have h1 : float_min FLOAT_MAX (FP.fin c) = FP.fin c := by
      unfold FLOAT_MAX
      rw [float_min_fin_fin, min_eq_right hc]
    rw [h1]
    exact aux xs (fun y hy => h y (by simp [hy]))

theorem Row.count_fresh_insert (r0 : Row) (B : ℕ)
    (hbk : r0.buckets = List.replicate B (FP.fin 0)) (hB : 1 ≤ B) (m s d : ℕ) :
    (r0.insert m s d (FP.fin 1)).count m s d = FP.fin 1 := by
  have hlen : 1 ≤ r0.buckets.length := by
    rw [hbk, List.length_replicate]
    exact hB
  unfold Row.count
  rw [Row.hash_insert]
  show ((r0.buckets.set (r0.hash m s d) _)).getD (r0.hash m s d) _ = _
  rw [List.getD_eq_getElem?_getD, List.getElem?_set_self (Row.hash_lt r0 hlen m s d),
    Option.getD_some, hbk, getD_replicate]
  show FP.fin (0 + 1) = FP.fin 1
  norm_num

theorem EdgeHash.count_new_insert_pos_edge (rows B m seed s d : ℕ) (hB : 1 ≤ B) :
    ∃ q : ℚ, ((EdgeHash.new rows B m seed).insert s d (FP.fin 1)).count s d = FP.fin q ∧
      0 < q := by
  unfold EdgeHash.count EdgeHash.insert
  simp only [List.map_map]
  cases hrows : (EdgeHash.new rows B m seed).rows with
  | nil =>
    refine ⟨(2 : ℚ) ^ 1024 - 2 ^ 971, ?_, by positivity⟩
    simp [FLOAT_MAX]
  | cons r0 rest =>
    refine ⟨1, ?_, by norm_num⟩
    apply foldl_min_const 1 (by norm_num)
    · intro x hx
      obtain ⟨r, hr, rfl⟩ := List.mem_map.1 hx
      have hr' : r ∈ (EdgeHash.new rows B m seed).rows := by rw [hrows]; exact hr
      have hbk := mkRows_buckets B rows _ r hr'
      show (r.insert (EdgeHash.new rows B m seed).m_value s d (FP.fin 1)).count
        (EdgeHash.new rows B m seed).m_value s d = FP.fin 1
      exact Row.count_fresh_insert r B hbk hB _ s d
    · simp

theorem NodeHash.count_new_insert_pos_node (rows B seed a : ℕ) (hB : 1 ≤ B) :
    ∃ q : ℚ, ((NodeHash.new rows B seed).insert a (FP.fin 1)).count a = FP.fin q ∧
      0 < q := by
  unfold NodeHash.count NodeHash.insert
  simp only [List.map_map]
  cases hrows : (NodeHash.new rows B seed).rows with
  | nil =>
    refine ⟨(2 : ℚ) ^ 1024 - 2 ^ 971, ?_, by positivity⟩
    simp [FLOAT_MAX]
  | cons r0 rest =>
    refine ⟨1, ?_, by norm_num⟩
    apply foldl_min_const 1 (by norm_num)
    · intro x hx
      obtain ⟨r, hr, rfl⟩ := List.mem_map.1 hx
      have hr' : r ∈ (NodeHash.new rows B seed).rows := by rw [hrows]; exact hr
      have hbk := mkRows_buckets B rows _ r hr'
      show ((r.node_insert a (FP.fin 1)).node_count a) = FP.fin 1
      unfold Row.node_insert Row.node_count
      exact Row.count_fresh_insert r B hbk hB 0 a 0
    · simp

theorem FP.fin_pos_div_zero {q : ℚ} (h : 0 < q) :
    (FP.fin q).div (FP.fin 0) = FP.pinf := by
  simp [FP.div, h]

/-- At current time zero with a strictly positive finite total and a
finite current estimate, the anomaly statistic is exactly zero: the mean
is positive infinity, the clamp produces a zero squared error, and both
terms vanish. -/
theorem counts_to_anom_time0 (total current : FP)
    (hm : total.div (FP.fin 0) = FP.pinf) (hc : ∃ q, current = FP.fin q) :
    counts_to_anom total current 0 = FP.fin 0 := by
  obtain ⟨qc, rfl⟩ := hc
  show ((((float_max (FP.fin 0) ((FP.fin qc).sub (total.div (natF 0)))).powi 2).div
      (total.div (natF 0))).add
    (((float_max (FP.fin 0) ((FP.fin qc).sub (total.div (natF 0)))).powi 2).div
      ((total.div (natF 0)).mul (float_max (FP.fin 1) (natF (u64sub1 0)))))) = FP.fin 0
  have hn : natF 0 = FP.fin 0 := by simp [natF]
  rw [hn, hm]
  have hsub : (FP.fin qc).sub FP.pinf = FP.ninf := rfl
  rw [hsub]
  have hclamp : float_max (FP.fin 0) FP.ninf = FP.fin 0 := rfl
  rw [hclamp, FP.powi_two]
  have hsq : (FP.fin 0).mul ((FP.fin 0).mul (FP.fin 1)) = FP.fin 0 := by
    show FP.fin (0 * (0 * 1)) = FP.fin 0
    norm_num
  rw [hsq]
  have hu : u64sub1 0 = 2 ^ 64 - 1 := by
    unfold u64sub1
    omega
  rw [hu]
  have hX : float_max (FP.fin 1) (natF (2 ^ 64 - 1)) = FP.fin ((2 ^ 64 - 1 : ℕ) : ℚ) := by
    show float_max (FP.fin 1) (FP.fin ((2 ^ 64 - 1 : ℕ) : ℚ)) = _
    rw [float_max_fin_fin, max_eq_right (by norm_num)]
  rw [hX]
  have hmul : FP.pinf.mul (FP.fin ((2 ^ 64 - 1 : ℕ) : ℚ)) = FP.pinf := by
    simp [FP.mul]
  rw [hmul]
  show FP.fin (0 + 0) = FP.fin 0
  norm_num

/-- The state reached by a fresh decayed detector after one insert at
time zero, spelled out (the internal seeds 539..544 are those of
`MidasR::new`). -/
def MidasR.firstState (p : MidasRParams) (source dest : ℕ) : MidasRState :=
  { current_time := 0
    alpha := p.alpha
    current_count := (EdgeHash.new p.rows p.buckets p.m_value 539).insert source dest (FP.fin 1)
    total_count := (EdgeHash.new p.rows p.buckets p.m_value 540).insert source dest (FP.fin 1)
    source_score := (NodeHash.new p.rows p.buckets 541).insert source (FP.fin 1)
    dest_score := (NodeHash.new p.rows p.buckets 542).insert dest (FP.fin 1)
    source_total := (NodeHash.new p.rows p.buckets 543).insert source (FP.fin 1)
    dest_total := (NodeHash.new p.rows p.buckets 544).insert dest (FP.fin 1) }

/-- C10: the first operation on a freshly constructed decayed detector
being an insert at time 0 (equal to the initial current time) does not
panic, leaves the current time at 0, and returns exactly score 0; the
mean is the positive-infinite `total/0`, so the clamp zeroes every
anomaly term and `ln(1+0) = 0` — a finite zero score, not NaN or
infinity. -/
theorem C10_first_insert_time_zero (p : MidasRParams) (source dest : ℕ)
    (hB : 2 ≤ p.buckets) :
    ∃ s1, (MidasR.new p).insert (source, dest, 0) = some (FR.fin 0, s1) ∧
      s1.current_time = 0 ∧
      (s1.total_count.count source dest).div (FP.fin 0) = FP.pinf := by
  have hB1 : 1 ≤ p.buckets := by omega
  have hstep : (MidasR.new p).insertStep (source, dest, 0) =
      some (MidasR.firstState p source dest) := by
    unfold MidasRState.insertStep MidasR.new MidasR.firstState
    norm_num
  obtain ⟨qe, he, he0⟩ := EdgeHash.count_new_insert_pos_edge p.rows p.buckets p.m_value 540
    source dest hB1
  obtain ⟨qc, hc, _⟩ := EdgeHash.count_new_insert_pos_edge p.rows p.buckets p.m_value 539
    source dest hB1
  obtain ⟨qs, hs, hs0⟩ := NodeHash.count_new_insert_pos_node p.rows p.buckets 543 source hB1
  obtain ⟨qss, hss, _⟩ := NodeHash.count_new_insert_pos_node p.rows p.buckets 541 source hB1
  obtain ⟨qd, hd, hd0⟩ := NodeHash.count_new_insert_pos_node p.rows p.buckets 544 dest hB1
  obtain ⟨qds, hds, _⟩ := NodeHash.count_new_insert_pos_node p.rows p.buckets 542 dest hB1
  refine ⟨MidasR.firstState p source dest, ?_, rfl, ?_⟩
  · unfold MidasRState.insert
    rw [hstep]
    show some (_, MidasR.firstState p source dest) = _
    have hq : (MidasR.firstState p source dest).query source dest = FR.fin 0 := by
      show FR.ln1p (FR.ofFP (float_max (float_max
        (counts_to_anom
          (((NodeHash.new p.rows p.buckets 543).insert source (FP.fin 1)).count source)
          (((NodeHash.new p.rows p.buckets 541).insert source (FP.fin 1)).count source) 0)
        (counts_to_anom
          (((NodeHash.new p.rows p.buckets 544).insert dest (FP.fin 1)).count dest)
          (((NodeHash.new p.rows p.buckets 542).insert dest (FP.fin 1)).count dest) 0))
        (counts_to_anom
          (((EdgeHash.new p.rows p.buckets p.m_value 540).insert source dest (FP.fin 1)).count
            source dest)
          (((EdgeHash.new p.rows p.buckets p.m_value 539).insert source dest (FP.fin 1)).count
            source dest)
          0))) = FR.fin 0
      rw [counts_to_anom_time0 _ _ (by rw [hs]; exact FP.fin_pos_div_zero hs0) ⟨qss, hss⟩,
        counts_to_anom_time0 _ _ (by rw [hd]; exact FP.fin_pos_div_zero hd0) ⟨qds, hds⟩,
        counts_to_anom_time0 _ _ (by rw [he]; exact FP.fin_pos_div_zero he0) ⟨qc, hc⟩]
      have hmx : float_max (float_max (FP.fin 0) (FP.fin 0)) (FP.fin 0) = FP.fin 0 := rfl
      rw [hmx]
      show FR.ln1p (FR.fin ((0 : ℚ) : ℝ)) = FR.fin 0
      have hln : FR.ln1p (FR.fin ((0 : ℚ) : ℝ)) = FR.fin (Real.log (1 + ((0 : ℚ) : ℝ))) := by
        show (if (-1 : ℝ) < ((0 : ℚ) : ℝ) then FR.fin (Real.log (1 + ((0 : ℚ) : ℝ)))
          else if ((0 : ℚ) : ℝ) = -1 then FR.ninf else FR.nan) = _
        rw [if_pos (by norm_num)]
      rw [hln]
      have hlog : Real.log (1 + ((0 : ℚ) : ℝ)) = 0 := by
        norm_num [Real.log_one]
      rw [hlog]
    rw [hq]
  · show (((EdgeHash.new p.rows p.buckets p.m_value 540).insert source dest (FP.fin 1)).count
      source dest).div (FP.fin 0) = FP.pinf
    rw [he]
    exact FP.fin_pos_div_zero he0

/-- Witness for C10 at the documented default construction parameters. -/
theorem C10_first_insert_time_zero_witness :
    ∃ s1, (MidasR.new ⟨2, 769, 773, FP.fin (3/5)⟩).insert (1, 2, 0) = some (FR.fin 0, s1) ∧
      s1.current_time = 0 ∧
      (s1.total_count.count 1 2).div (FP.fin 0) = FP.pinf :=
  C10_first_insert_time_zero ⟨2, 769, 773, FP.fin (3/5)⟩ 1 2 (by norm_num)

/-! Decay-on-time-advance development. -/

/-- Finite values bounded to the representable nonnegative float range
(a decidable predicate used to state decay hypotheses). -/
def FP.finBounded : FP → Prop
  | FP.fin q => 0 ≤ q ∧ q ≤ ((2 ^ 1024 - 2 ^ 971 : ℕ) : ℚ)
  | _ => False

instance (x : FP) : Decidable x.finBounded :=
  match x with
  | .nan => isFalse (fun h => h)
  | .pinf => isFalse (fun h => h)
  | .ninf => isFalse (fun h => h)
  | .fin q => inferInstanceAs (Decidable (0 ≤ q ∧ q ≤ ((2 ^ 1024 - 2 ^ 971 : ℕ) : ℚ)))

theorem fmax_cast : (((2 ^ 1024 - 2 ^ 971 : ℕ)) : ℚ) = (2 : ℚ) ^ 1024 - 2 ^ 971 := by
  rw [Nat.cast_sub (by norm_num : (2 : ℕ) ^ 971 ≤ 2 ^ 1024)]
  norm_num

theorem FP.powi_u64AsI32 (x : FP) (d : ℕ) (hd : d < 2 ^ 31) :
    x.powi (u64AsI32 d) = x.npw d := by
  have h1 : d % 2 ^ 32 = d := Nat.mod_eq_of_lt (by omega)
  have hu : u64AsI32 d = (d : ℤ) := by
    show (if d % 2 ^ 32 < 2 ^ 31 then ((d % 2 ^ 32 : ℕ) : ℤ)
      else ((d % 2 ^ 32 : ℕ) : ℤ) - 2 ^ 32) = (d : ℤ)
    rw [if_pos (by omega : d % 2 ^ 32 < 2 ^ 31), h1]
  rw [hu]
  unfold FP.powi
  rw [if_pos (Int.natCast_nonneg d)]
  simp

theorem FP.npw_fin (q : ℚ) (n : ℕ) : (FP.fin q).npw n = FP.fin (q ^ n) := by
  induction n with
  | zero => simp [FP.npw]
  | succ k ih =>
    rw [FP.npw, ih]
    show FP.fin (q * q ^ k) = _
    rw [← pow_succ']

/-- Part one of the decay claim: the state transition on a strictly
advanced time is exactly decay-then-insert on the three current sketches
and plain insert on the three total sketches. -/
theorem MidasRState.insertStep_decay (s : MidasRState) (source dest time : ℕ)
    (ht : s.current_time < time) (h31 : time - s.current_time < 2 ^ 31) :
    s.insertStep (source, dest, time) = some
      { current_time := time
        alpha := s.alpha
        current_count := (s.current_count.lower (s.alpha.npw (time - s.current_time))).insert
          source dest (FP.fin 1)
        total_count := s.total_count.insert source dest (FP.fin 1)
        source_score := (s.source_score.lower (s.alpha.npw (time - s.current_time))).insert
          source (FP.fin 1)
        dest_score := (s.dest_score.lower (s.alpha.npw (time - s.current_time))).insert
          dest (FP.fin 1)
        source_total := s.source_total.insert source (FP.fin 1)
        dest_total := s.dest_total.insert dest (FP.fin 1) } := by
  unfold MidasRState.insertStep
  simp [le_of_lt ht, ht, FP.powi_u64AsI32 _ _ h31]

theorem Row.count_lower (r : Row) (f : FP) (m a b : ℕ) (hlen : 1 ≤ r.buckets.length) :
    (r.lower f).count m a b = (r.count m a b).mul f := by
  unfold Row.count
  rw [Row.hash_lower]
  show (r.buckets.map (fun v => v.mul f)).getD (r.hash m a b) _ = _
  rw [List.getD_eq_getElem _ _ (by simpa using Row.hash_lt r hlen m a b),
    List.getElem_map, List.getD_eq_getElem _ _ (Row.hash_lt r hlen m a b)]

theorem EdgeHash.count_insert_ne (h : EdgeHash) (src dst a b : ℕ) (w : FP)
    (hcol : ∀ r ∈ h.rows, r.hash h.m_value src dst ≠ r.hash h.m_value a b) :
    (h.insert src dst w).count a b = h.count a b := by
  unfold EdgeHash.count EdgeHash.insert
  simp only [List.map_map]
  congr 1
  apply List.map_congr_left
  intro r hr
  show ((r.insert h.m_value src dst w)).count h.m_value a b = r.count h.m_value a b
  unfold Row.count
  rw [Row.hash_insert]
  show ((r.buckets.set (r.hash h.m_value src dst) _)).getD (r.hash h.m_value a b) _ = _
  rw [List.getD_eq_getElem?_getD, List.getElem?_set_ne (hcol r hr),
    ← List.getD_eq_getElem?_getD]

theorem foldl_min_scale_fp (f : ℚ) (hf0 : 0 ≤ f) (hf1 : f ≤ 1) :
    ∀ (l : List FP) (a : ℚ),
      (∀ x ∈ l, x.finBounded) →
      (l.map (fun x => x.mul (FP.fin f))).foldl float_min (FP.fin (a * f)) =
        (FP.fin f).mul (l.foldl float_min (FP.fin a)) := by
  intro l
  induction l with
  | nil =>
    intro a _
    show FP.fin (a * f) = FP.fin (f * a)
    rw [mul_comm]
  | cons x rest ih =>
    intro a hl
    obtain ⟨q, hq0, hq1⟩ : ∃ q, x = FP.fin q ∧ 0 ≤ q := by
      have := hl x (by simp)
      cases x with
      | fin q => exact ⟨q, rfl, this.1⟩
      | nan => exact absurd this (fun h => h)
      | pinf => exact absurd this (fun h => h)
      | ninf => exact absurd this (fun h => h)
    subst hq0
    rw [List.map_cons, List.foldl_cons, List.foldl_cons]
    show (rest.map (fun x => x.mul (FP.fin f))).foldl float_min
        (float_min (FP.fin (a * f)) (FP.fin (q * f))) = _
    rw [float_min_fin_fin, float_min_fin_fin, ← min_mul_of_nonneg _ _ hf0]
    exact ih (min a q) (fun y hy => hl y (by simp [hy]))

/-- Decaying an edge sketch whose counters are finite, nonnegative and
representable scales its count-min estimate by the (nonnegative,
at-most-one) decay factor. -/
theorem EdgeHash.count_lower_scale (h : EdgeHash) (f : ℚ) (hf0 : 0 ≤ f) (hf1 : f ≤ 1)
    (a b : ℕ) (hrows : h.rows ≠ [])
    (hlen : ∀ r ∈ h.rows, 1 ≤ r.buckets.length)
    (hfin : ∀ r ∈ h.rows, ∀ v ∈ r.buckets, v.finBounded) :
    (h.lower (FP.fin f)).count a b = (FP.fin f).mul (h.count a b) := by
  have hcnt : ∀ r ∈ h.rows, ∃ q, r.count h.m_value a b = FP.fin q ∧ 0 ≤ q ∧
      q ≤ ((2 ^ 1024 - 2 ^ 971 : ℕ) : ℚ) := by
    intro r hr
    have hmem : r.count h.m_value a b ∈ r.buckets := by
      unfold Row.count
      rw [List.getD_eq_getElem _ _ (Row.hash_lt r (hlen r hr) h.m_value a b)]
      exact List.getElem_mem _
    have hb := hfin r hr _ hmem
    cases hx : r.count h.m_value a b with
    | fin q =>
      rw [hx] at hb
      simp only [FP.finBounded] at hb
      exact ⟨q, rfl, hb⟩
    | nan => rw [hx] at hb; exact absurd hb (fun hc => hc)
    | pinf => rw [hx] at hb; exact absurd hb (fun hc => hc)
    | ninf => rw [hx] at hb; exact absurd hb (fun hc => hc)
  unfold EdgeHash.count EdgeHash.lower
  simp only [List.map_map]
  cases hrl : h.rows with
  | nil => exact absurd hrl hrows
  | cons r0 rest =>
    have hcount0 : ∀ r ∈ h.rows, ((r.lower (FP.fin f)).count h.m_value a b) =
        (r.count h.m_value a b).mul (FP.fin f) :=
      fun r hr => Row.count_lower r (FP.fin f) h.m_value a b (hlen r hr)
    obtain ⟨q0, hq0, hq00, hq01c⟩ := hcnt r0 (by rw [hrl]; simp)
    have hq01 : q0 ≤ (2 : ℚ) ^ 1024 - 2 ^ 971 := by
      rw [← fmax_cast]
      exact hq01c
    have hmap : ((r0 :: rest).map ((fun r => r.count h.m_value a b) ∘ fun r =>
        r.lower (FP.fin f))) = ((r0 :: rest).map (fun r => r.count h.m_value a b)).map
        (fun x => x.mul (FP.fin f)) := by
      rw [List.map_map]
      apply List.map_congr_left
      intro r hr
      show ((r.lower (FP.fin f)).count h.m_value a b) = _
      rw [hcount0 r (by rw [hrl]; exact hr)]
      rfl
    rw [hmap]
    rw [List.map_cons, List.map_cons, List.foldl_cons, List.foldl_cons]
    have hstep1 : float_min FLOAT_MAX ((FP.fin q0).mul (FP.fin f)) = FP.fin (q0 * f) := by
      show float_min (FP.fin _) (FP.fin (q0 * f)) = _
      rw [float_min_fin_fin, min_eq_right]
      calc q0 * f ≤ q0 * 1 := by
            apply mul_le_mul_of_nonneg_left hf1 hq00
        _ = q0 := mul_one q0
        _ ≤ _ := hq01
    have hstep2 : float_min FLOAT_MAX (FP.fin q0) = FP.fin q0 := by
      show float_min (FP.fin _) (FP.fin q0) = _
      rw [float_min_fin_fin, min_eq_right hq01]
    rw [hq0, hstep1, hstep2]
    apply foldl_min_scale_fp f hf0 hf1
    intro x hx
    obtain ⟨r, hr, rfl⟩ := List.mem_map.1 hx
    obtain ⟨q, hq, hb0, hb1⟩ := hcnt r (by rw [hrl]; simp [hr])
    rw [hq]
    exact ⟨hb0, hb1⟩

/-- C3: on an insert whose time strictly exceeds the current time, the
decayed variant multiplies every counter of the three current sketches by
`alpha^(time - current_time)` before the event is counted, and does not
decay the three total sketches (the resulting state is exactly
decay-then-insert on the current sketches and plain insert on the
totals); consequently, with a gap `k > 1` and a key that does not collide
with the inserted pair in any row, that key's decayed current-window
estimate equals `alpha^k` times its pre-decay value. -/
theorem C3_decay_on_advance (s : MidasRState) (source dest time ka kb : ℕ) (f : ℚ)
    (ht : s.current_time < time) (h31 : time - s.current_time < 2 ^ 31)
    (hk : 1 < time - s.current_time)
    (halpha : s.alpha = FP.fin f) (hf0 : 0 ≤ f) (hf1 : f ≤ 1)
    (hrows : s.current_count.rows ≠ [])
    (hlen : ∀ r ∈ s.current_count.rows, 1 ≤ r.buckets.length)
    (hfin : ∀ r ∈ s.current_count.rows, ∀ v ∈ r.buckets, v.finBounded)
    (hcol : ∀ r ∈ s.current_count.rows,
      r.hash s.current_count.m_value source dest ≠ r.hash s.current_count.m_value ka kb) :
    s.insertStep (source, dest, time) = some
      { current_time := time
        alpha := s.alpha
        current_count := (s.current_count.lower (s.alpha.npw (time - s.current_time))).insert
          source dest (FP.fin 1)
        total_count := s.total_count.insert source dest (FP.fin 1)
        source_score := (s.source_score.lower (s.alpha.npw (time - s.current_time))).insert
          source (FP.fin 1)
        dest_score := (s.dest_score.lower (s.alpha.npw (time - s.current_time))).insert
          dest (FP.fin 1)
        source_total := s.source_total.insert source (FP.fin 1)
        dest_total := s.dest_total.insert dest (FP.fin 1) } ∧
    ((s.current_count.lower (s.alpha.npw (time - s.current_time))).insert source dest
        (FP.fin 1)).count ka kb =
      (s.alpha.npw (time - s.current_time)).mul (s.current_count.count ka kb) := by
  refine ⟨MidasRState.insertStep_decay s source dest time ht h31, ?_⟩
  rw [halpha, FP.npw_fin]
  have hf0k : 0 ≤ f ^ (time - s.current_time) := pow_nonneg hf0 _
  have hf1k : f ^ (time - s.current_time) ≤ 1 := pow_le_one₀ hf0 hf1
  have hcol2 : ∀ r ∈ (s.current_count.lower (FP.fin (f ^ (time - s.current_time)))).rows,
      r.hash (s.current_count.lower (FP.fin (f ^ (time - s.current_time)))).m_value
        source dest ≠
      r.hash (s.current_count.lower (FP.fin (f ^ (time - s.current_time)))).m_value ka kb := by
    intro r hr
    have hr' : r ∈ s.current_count.rows.map
        (fun r => r.lower (FP.fin (f ^ (time - s.current_time)))) := hr
    obtain ⟨r0, hr0, rfl⟩ := List.mem_map.1 hr'
    show (r0.lower _).hash s.current_count.m_value source dest ≠
      (r0.lower _).hash s.current_count.m_value ka kb
    rw [Row.hash_lower, Row.hash_lower]
    exact hcol r0 hr0
  rw [EdgeHash.count_insert_ne _ source dest ka kb (FP.fin 1) hcol2]
  exact EdgeHash.count_lower_scale s.current_count _ hf0k hf1k ka kb hrows hlen hfin

set_option exponentiation.threshold 2000 in
set_option maxRecDepth 100000 in
/-- Witness for C3 at a concrete fresh state, a gap of two ticks and a
non-colliding key. -/
theorem C3_decay_on_advance_witness :
    (MidasR.new ⟨1, 5, 7, FP.fin (1/2)⟩).insertStep (1, 2, 2) = some
      { current_time := 2
        alpha := (MidasR.new ⟨1, 5, 7, FP.fin (1/2)⟩).alpha
        current_count := ((MidasR.new ⟨1, 5, 7, FP.fin (1/2)⟩).current_count.lower
          ((MidasR.new ⟨1, 5, 7, FP.fin (1/2)⟩).alpha.npw
            (2 - (MidasR.new ⟨1, 5, 7, FP.fin (1/2)⟩).current_time))).insert 1 2 (FP.fin 1)
        total_count := (MidasR.new ⟨1, 5, 7, FP.fin (1/2)⟩).total_count.insert 1 2 (FP.fin 1)
        source_score := ((MidasR.new ⟨1, 5, 7, FP.fin (1/2)⟩).source_score.lower
          ((MidasR.new ⟨1, 5, 7, FP.fin (1/2)⟩).alpha.npw
            (2 - (MidasR.new ⟨1, 5, 7, FP.fin (1/2)⟩).current_time))).insert 1 (FP.fin 1)
        dest_score := ((MidasR.new ⟨1, 5, 7, FP.fin (1/2)⟩).dest_score.lower
          ((MidasR.new ⟨1, 5, 7, FP.fin (1/2)⟩).alpha.npw
            (2 - (MidasR.new ⟨1, 5, 7, FP.fin (1/2)⟩).current_time))).insert 2 (FP.fin 1)
        source_total := (MidasR.new ⟨1, 5, 7, FP.fin (1/2)⟩).source_total.insert 1 (FP.fin 1)
        dest_total := (MidasR.new ⟨1, 5, 7, FP.fin (1/2)⟩).dest_total.insert 2 (FP.fin 1) } ∧
    (((MidasR.new ⟨1, 5, 7, FP.fin (1/2)⟩).current_count.lower
        ((MidasR.new ⟨1, 5, 7, FP.fin (1/2)⟩).alpha.npw
          (2 - (MidasR.new ⟨1, 5, 7, FP.fin (1/2)⟩).current_time))).insert 1 2
        (FP.fin 1)).count 3 4 =
      ((MidasR.new ⟨1, 5, 7, FP.fin (1/2)⟩).alpha.npw
        (2 - (MidasR.new ⟨1, 5, 7, FP.fin (1/2)⟩).current_time)).mul
        ((MidasR.new ⟨1, 5, 7, FP.fin (1/2)⟩).current_count.count 3 4) :=
  C3_decay_on_advance (MidasR.new ⟨1, 5, 7, FP.fin (1/2)⟩) 1 2 2 3 4 (1/2)
    (by decide) (by decide) (by decide) rfl (by norm_num) (by norm_num)
    (by decide) (by decide) (by decide) (by decide)

/-! Score non-negativity development. -/

/-- Never-negative floats: not minus infinity, and any finite value is
nonnegative (NaN and plus infinity qualify: neither is a negative
value). -/
def FP.NN (x : FP) : Prop := x ≠ FP.ninf ∧ ∀ q : ℚ, x = FP.fin q → 0 ≤ q

theorem FP.NN_nan : FP.nan.NN := ⟨by simp, by simp⟩

theorem FP.NN_pinf : FP.pinf.NN := ⟨by simp, by simp⟩

theorem FP.NN_fin {q : ℚ} (h : 0 ≤ q) : (FP.fin q).NN :=
  ⟨by simp, by intro p hp; cases hp; exact h⟩

theorem FP.NN_natF (t : ℕ) : (natF t).NN := FP.NN_fin (by positivity)

theorem FP.NN_add {x y : FP} (hx : x.NN) (hy : y.NN) : (x.add y).NN := by
  cases x with
  | nan => exact FP.NN_nan
  | ninf => exact absurd rfl hx.1
  | pinf =>
    cases y with
    | nan => exact FP.NN_nan
    | ninf => exact absurd rfl hy.1
    | pinf => exact FP.NN_pinf
    | fin b => exact FP.NN_pinf
  | fin a =>
    cases y with
    | nan => exact FP.NN_nan
    | ninf => exact absurd rfl hy.1
    | pinf => exact FP.NN_pinf
    | fin b => exact FP.NN_fin (add_nonneg (hx.2 a rfl) (hy.2 b rfl))

theorem FP.NN_mul {x y : FP} (hx : x.NN) (hy : y.NN) : (x.mul y).NN := by
  cases x with
  | nan => exact FP.NN_nan
  | ninf => exact absurd rfl hx.1
  | pinf =>
    cases y with
    | nan => exact FP.NN_nan
    | ninf => exact absurd rfl hy.1
    | pinf => exact FP.NN_pinf
    | fin b =>
      show (if 0 < b then FP.pinf else if b < 0 then FP.ninf else FP.nan).NN
      rcases lt_trichotomy b 0 with h | h | h
      · exact absurd (hy.2 b rfl) (not_le.2 h)
      · subst h
        simp only [lt_irrefl, if_neg (lt_irrefl 0)]
        exact FP.NN_nan
      · rw [if_pos h]
        exact FP.NN_pinf
  | fin a =>
    cases y with
    | nan => exact FP.NN_nan
    | ninf => exact absurd rfl hy.1
    | pinf =>
      show (if 0 < a then FP.pinf else if a < 0 then FP.ninf else FP.nan).NN
      rcases lt_trichotomy a 0 with h | h | h
      · exact absurd (hx.2 a rfl) (not_le.2 h)
      · subst h
        simp only [lt_irrefl, if_neg (lt_irrefl 0)]
        exact FP.NN_nan
      · rw [if_pos h]
        exact FP.NN_pinf
    | fin b => exact FP.NN_fin (mul_nonneg (hx.2 a rfl) (hy.2 b rfl))

theorem FP.NN_div {x y : FP} (hx : x.NN) (hy : y.NN) : (x.div y).NN := by
  cases x with
  | nan => exact FP.NN_nan
  | ninf => exact absurd rfl hx.1
  | pinf =>
    cases y with
    | nan => exact FP.NN_nan
    | ninf => exact absurd rfl hy.1
    | pinf => exact FP.NN_nan
    | fin b =>
      show (if 0 ≤ b then FP.pinf else FP.ninf).NN
      rw [if_pos (hy.2 b rfl)]
      exact FP.NN_pinf
  | fin a =>
    cases y with
    | nan => exact FP.NN_nan
    | ninf => exact absurd rfl hy.1
    | pinf => exact FP.NN_fin (le_refl 0)
    | fin b =>
      show (if b = 0 then (if 0 < a then FP.pinf else if a < 0 then FP.ninf else FP.nan)
        else FP.fin (a / b)).NN
      by_cases hb : b = 0
      · rw [if_pos hb]
        rcases lt_trichotomy a 0 with h | h | h
        · exact absurd (hx.2 a rfl) (not_le.2 h)
        · subst h
          simp only [lt_irrefl, if_neg (lt_irrefl 0)]
          exact FP.NN_nan
        · rw [if_pos h]
          exact FP.NN_pinf
      · rw [if_neg hb]
        exact FP.NN_fin (div_nonneg (hx.2 a rfl) (hy.2 b rfl))

theorem FP.NN_sq (x : FP) : (x.powi 2).NN := by
  rw [FP.powi_two]
  cases x with
  | nan => exact FP.NN_nan
  | pinf => exact FP.NN_pinf
  | ninf =>
    show (FP.ninf.mul (FP.ninf.mul (FP.fin 1))).NN
    have h1 : FP.ninf.mul (FP.fin 1) = FP.ninf := by
      show (if (0 : ℚ) < 1 then FP.ninf else if (1 : ℚ) < 0 then FP.pinf else FP.nan) = FP.ninf
      rw [if_pos (by norm_num)]
    rw [h1]
    exact FP.NN_pinf
  | fin q =>
    show (FP.fin (q * (q * 1))).NN
    exact FP.NN_fin (by rw [mul_one]; exact mul_self_nonneg q)

theorem FP.NN_float_max {x y : FP} (hx : x.NN) (hy : y.NN) : (float_max x y).NN := by
  unfold float_max
  by_cases h : y.ble x
  · rw [if_pos h]; exact hx
  · rw [if_neg h]; exact hy

theorem FP.NN_float_min {x y : FP} (hx : x.NN) (hy : y.NN) : (float_min x y).NN := by
  unfold float_min
  by_cases h : x.ble y
  · rw [if_pos h]; exact hx
  · rw [if_neg h]; exact hy

/-- Every bucket of every row holds a nonnegative finite value. -/
def rowsNN (rows : List Row) : Prop :=
  ∀ r ∈ rows, ∀ v ∈ r.buckets, ∃ q : ℚ, v = FP.fin q ∧ 0 ≤ q

theorem rowsNN_mkRows (n buckets : ℕ) (rng : Rng) : rowsNN (mkRows n buckets rng) := by
  intro r hr v hv
  rw [mkRows_buckets buckets n rng r hr] at hv
  exact ⟨0, List.eq_of_mem_replicate hv, le_refl 0⟩

theorem rowsNN_insert {rows : List Row} (h : rowsNN rows) (m s d : ℕ) :
    rowsNN (rows.map (fun r => r.insert m s d (FP.fin 1))) := by
  intro r hr v hv
  obtain ⟨r0, hr0, rfl⟩ := List.mem_map.1 hr
  unfold Row.insert at hv
  rcases List.mem_or_eq_of_mem_set hv with hv' | rfl
  · exact h r0 hr0 v hv'
  · by_cases hlt : r0.hash m s d < r0.buckets.length
    · have hmem : r0.buckets.getD (r0.hash m s d) (FP.fin 0) ∈ r0.buckets := by
        rw [List.getD_eq_getElem _ _ hlt]
        exact List.getElem_mem hlt
      obtain ⟨q, hq, hq0⟩ := h r0 hr0 _ hmem
      refine ⟨q + 1, ?_, by linarith⟩
      rw [hq]
      rfl
    · rw [List.getD_eq_default _ _ (Nat.le_of_not_lt hlt)]
      exact ⟨0 + 1, rfl, by norm_num⟩

theorem FP.NN_FLOAT_MAX : FLOAT_MAX.NN := FP.NN_fin (by positivity)

theorem NN_foldl_min {l : List FP} (hl : ∀ x ∈ l, x.NN) :
    ∀ acc : FP, acc.NN → (l.foldl float_min acc).NN := by
  induction l with
  | nil => exact fun acc h => h
  | cons x rest ih =>
    intro acc hacc
    rw [List.foldl_cons]
    exact ih (fun y hy => hl y (by simp [hy])) _
      (FP.NN_float_min hacc (hl x (by simp)))

theorem EdgeHash.count_NN_edge (h : EdgeHash) (hh : rowsNN h.rows) (s d : ℕ) :
    (h.count s d).NN := by
  unfold EdgeHash.count
  apply NN_foldl_min _ FLOAT_MAX FP.NN_FLOAT_MAX
  intro x hx
  obtain ⟨r, hr, rfl⟩ := List.mem_map.1 hx
  unfold Row.count
  by_cases hlt : r.hash h.m_value s d < r.buckets.length
  · have hmem : r.buckets.getD (r.hash h.m_value s d) (FP.fin 0) ∈ r.buckets := by
      rw [List.getD_eq_getElem _ _ hlt]
      exact List.getElem_mem hlt
    obtain ⟨q, hq, hq0⟩ := hh r hr _ hmem
    rw [hq]
    exact FP.NN_fin hq0
  · rw [List.getD_eq_default _ _ (Nat.le_of_not_lt hlt)]
    exact FP.NN_fin (le_refl 0)

theorem NodeHash.count_NN_node (h : NodeHash) (hh : rowsNN h.rows) (s : ℕ) :
    (h.count s).NN := by
  unfold NodeHash.count
  apply NN_foldl_min _ FLOAT_MAX FP.NN_FLOAT_MAX
  intro x hx
  obtain ⟨r, hr, rfl⟩ := List.mem_map.1 hx
  unfold Row.node_count Row.count
  by_cases hlt : r.hash 0 s 0 < r.buckets.length
  · have hmem : r.buckets.getD (r.hash 0 s 0) (FP.fin 0) ∈ r.buckets := by
      rw [List.getD_eq_getElem _ _ hlt]
      exact List.getElem_mem hlt
    obtain ⟨q, hq, hq0⟩ := hh r hr _ hmem
    rw [hq]
    exact FP.NN_fin hq0
  · rw [List.getD_eq_default _ _ (Nat.le_of_not_lt hlt)]
    exact FP.NN_fin (le_refl 0)

/-- The anomaly statistic is never negative whenever the total estimate
is never negative, whatever the current estimate and the time. -/
theorem counts_to_anom_NN (total current : FP) (t : ℕ) (htot : total.NN) :
    (counts_to_anom total current t).NN := by
  show ((((float_max (FP.fin 0) (current.sub (total.div (natF t)))).powi 2).div
      (total.div (natF t))).add
    (((float_max (FP.fin 0) (current.sub (total.div (natF t)))).powi 2).div
      ((total.div (natF t)).mul (float_max (FP.fin 1) (natF (u64sub1 t)))))).NN
  have hmean : (total.div (natF t)).NN := FP.NN_div htot (FP.NN_natF t)
  have hsq : ((float_max (FP.fin 0) (current.sub (total.div (natF t)))).powi 2).NN :=
    FP.NN_sq _
  have hX : (float_max (FP.fin 1) (natF (u64sub1 t))).NN :=
    FP.NN_float_max (FP.NN_fin (by norm_num)) (FP.NN_natF _)
  exact FP.NN_add (FP.NN_div hsq hmean) (FP.NN_div hsq (FP.NN_mul hmean hX))

theorem FP.NN_blt_zero {x : FP} (h : x.NN) : x.blt (FP.fin 0) = false := by
  cases x with
  | nan => rfl
  | pinf => rfl
  | ninf => exact absurd rfl h.1
  | fin q =>
    show decide (q < 0) = false
    exact decide_eq_false (not_lt.2 (h.2 q rfl))

theorem FR_ln1p_NN {x : FP} (hx : x.NN) : ¬ FR.lt (FR.ln1p (FR.ofFP x)) (FR.fin 0) := by
  cases x with
  | nan => exact fun hlt => hlt
  | pinf => exact fun hlt => hlt
  | ninf => exact absurd rfl hx.1
  | fin q =>
    have hq : (0 : ℚ) ≤ q := hx.2 q rfl
    have hq' : (0 : ℝ) ≤ (q : ℝ) := by exact_mod_cast hq
    show ¬ FR.lt (FR.ln1p (FR.fin (q : ℝ))) (FR.fin 0)
    have hln : FR.ln1p (FR.fin (q : ℝ)) = FR.fin (Real.log (1 + (q : ℝ))) := by
      show (if (-1 : ℝ) < (q : ℝ) then FR.fin (Real.log (1 + (q : ℝ)))
        else if (q : ℝ) = -1 then FR.ninf else FR.nan) = _
      rw [if_pos (lt_of_lt_of_le (by norm_num) hq')]
    rw [hln]
    show ¬ (Real.log (1 + (q : ℝ)) < 0)
    exact not_lt.2 (Real.log_nonneg (le_add_of_nonneg_right hq'))

theorem MidasRState.insertStep_TotalsNN_r {s s1 : MidasRState} {e : ℕ × ℕ × ℕ}
    (hstep : s.insertStep e = some s1)
    (h : rowsNN s.total_count.rows ∧ rowsNN s.source_total.rows ∧
      rowsNN s.dest_total.rows) :
    rowsNN s1.total_count.rows ∧ rowsNN s1.source_total.rows ∧
      rowsNN s1.dest_total.rows := by
  unfold MidasRState.insertStep at hstep
  by_cases hle : s.current_time ≤ e.2.2
  · by_cases hlt : s.current_time < e.2.2 <;> simp [hle, hlt] at hstep <;> rw [← hstep] <;>
      exact ⟨rowsNN_insert h.1 _ _ _, rowsNN_insert h.2.1 0 _ 0, rowsNN_insert h.2.2 0 _ 0⟩
  · simp [hle] at hstep

theorem MidasState.insertStep_TotalsNN_m {s s1 : MidasState} {e : ℕ × ℕ × ℕ}
    (hstep : s.insertStep e = some s1) (h : rowsNN s.total_count.rows) :
    rowsNN s1.total_count.rows := by
  unfold MidasState.insertStep at hstep
  by_cases hle : s.current_time ≤ e.2.2
  · by_cases hlt : s.current_time < e.2.2 <;> simp [hle, hlt] at hstep <;> rw [← hstep] <;>
      exact rowsNN_insert h _ _ _
  · simp [hle] at hstep

theorem MidasR.run_TotalsNN_r {s s1 : MidasRState} {evts : List (ℕ × ℕ × ℕ)}
    (hrun : MidasR.run s evts = some s1)
    (h : rowsNN s.total_count.rows ∧ rowsNN s.source_total.rows ∧
      rowsNN s.dest_total.rows) :
    rowsNN s1.total_count.rows ∧ rowsNN s1.source_total.rows ∧
      rowsNN s1.dest_total.rows := by
  induction evts generalizing s with
  | nil =>
    simp [MidasR.run] at hrun
    rw [← hrun]
    exact h
  | cons e rest ih =>
    rw [MidasR.run] at hrun
    cases heq : s.insertStep e with
    | none => rw [heq] at hrun; exact absurd hrun (by simp)
    | some s2 =>
      rw [heq] at hrun
      exact ih hrun (MidasRState.insertStep_TotalsNN_r heq h)

theorem Midas.run_TotalsNN_m {s s1 : MidasState} {evts : List (ℕ × ℕ × ℕ)}
    (hrun : Midas.run s evts = some s1) (h : rowsNN s.total_count.rows) :
    rowsNN s1.total_count.rows := by
  induction evts generalizing s with
  | nil =>
    simp [Midas.run] at hrun
    rw [← hrun]
    exact h
  | cons e rest ih =>
    rw [Midas.run] at hrun
    cases heq : s.insertStep e with
    | none => rw [heq] at hrun; exact absurd hrun (by simp)
    | some s2 =>
      rw [heq] at hrun
      exact ih hrun (MidasState.insertStep_TotalsNN_m heq h)

theorem MidasR.reachable_TotalsNN_r {s : MidasRState} (h : MidasR.Reachable s) :
    rowsNN s.total_count.rows ∧ rowsNN s.source_total.rows ∧
      rowsNN s.dest_total.rows := by
  obtain ⟨p, evts, hrun⟩ := h
  exact MidasR.run_TotalsNN_r hrun
    ⟨rowsNN_mkRows _ _ _, rowsNN_mkRows _ _ _, rowsNN_mkRows _ _ _⟩

theorem Midas.reachable_TotalsNN_m {s : MidasState} (h : Midas.Reachable s) :
    rowsNN s.total_count.rows := by
  obtain ⟨p, evts, hrun⟩ := h
  exact Midas.run_TotalsNN_m hrun (rowsNN_mkRows _ _ _)

theorem MidasState.query_NN (s : MidasState) (h : rowsNN s.total_count.rows)
    (source dest : ℕ) : (s.query source dest).blt (FP.fin 0) = false := by
  unfold MidasState.query
  by_cases h1 : s.current_time = 1
  · rw [if_pos h1]
    rfl
  · rw [if_neg h1]
    apply FP.NN_blt_zero
    have hmean : ((s.total_count.count source dest).div (natF s.current_time)).NN :=
      FP.NN_div (EdgeHash.count_NN_edge s.total_count h source dest) (FP.NN_natF _)
    have hsq : (((s.current_count.count source dest).sub
        ((s.total_count.count source dest).div (natF s.current_time))).powi 2).NN :=
      FP.NN_sq _
    exact FP.NN_add (FP.NN_div hsq hmean)
      (FP.NN_div hsq (FP.NN_mul hmean (FP.NN_natF _)))

/-- C8: for both variants and every reachable detector state and pair,
`query` never returns a negative value (the result is nonnegative,
positive infinity or NaN, never below zero). -/
theorem C8_query_nonneg :
    (∀ s : MidasRState, MidasR.Reachable s → ∀ source dest : ℕ,
      ¬ FR.lt (s.query source dest) (FR.fin 0)) ∧
    (∀ s : MidasState, Midas.Reachable s → ∀ source dest : ℕ,
      (s.query source dest).blt (FP.fin 0) = false) := by
  constructor
  · intro s hreach source dest
    obtain ⟨hT, hS, hD⟩ := MidasR.reachable_TotalsNN_r hreach
    unfold MidasRState.query
    apply FR_ln1p_NN
    exact FP.NN_float_max
      (FP.NN_float_max
        (counts_to_anom_NN _ _ _ (NodeHash.count_NN_node _ hS _))
        (counts_to_anom_NN _ _ _ (NodeHash.count_NN_node _ hD _)))
      (counts_to_anom_NN _ _ _ (EdgeHash.count_NN_edge _ hT _ _))
  · intro s hreach source dest
    exact MidasState.query_NN s (Midas.reachable_TotalsNN_m hreach) source dest

/-- Witness for C8 at concrete reachable states of both variants. -/
theorem C8_query_nonneg_witness :
    ¬ FR.lt ((MidasR.new ⟨1, 2, 3, FP.fin (3/5)⟩).query 0 0) (FR.fin 0) ∧
    ((Midas.new ⟨1, 2, 3⟩).query 0 0).blt (FP.fin 0) = false :=
  ⟨C8_query_nonneg.1 _ ⟨⟨1, 2, 3, FP.fin (3/5)⟩, [], rfl⟩ 0 0,
   C8_query_nonneg.2 _ ⟨⟨1, 2, 3⟩, [], rfl⟩ 0 0⟩

/-! Counterexample development for the unrestricted decay claim: at a
time gap of `2^32` the source's `u64 → i32` cast of the delta wraps to
exponent `0`, so the decay factor applied is `alpha^0 = 1`, not
`alpha^(2^32)`. -/

theorem mkRows_length : ∀ (n buckets : ℕ) (rng : Rng), (mkRows n buckets rng).length = n := by
  intro n
  induction n with
  | zero => intro buckets rng; rfl
  | succ k ih =>
    intro buckets rng
    rw [mkRows]
    simp [ih]

/-- The state transition at a time gap of exactly `2^32`: the wrapped
`i32` exponent is zero, so every current sketch is decayed by the factor
one. -/
theorem MidasRState.insertStep_gap_pow32 (s : MidasRState) (source dest : ℕ) :
    s.insertStep (source, dest, s.current_time + 2 ^ 32) = some
      { current_time := s.current_time + 2 ^ 32
        alpha := s.alpha
        current_count := (s.current_count.lower (FP.fin 1)).insert source dest (FP.fin 1)
        total_count := s.total_count.insert source dest (FP.fin 1)
        source_score := (s.source_score.lower (FP.fin 1)).insert source (FP.fin 1)
        dest_score := (s.dest_score.lower (FP.fin 1)).insert dest (FP.fin 1)
        source_total := s.source_total.insert source (FP.fin 1)
        dest_total := s.dest_total.insert dest (FP.fin 1) } := by
  have hd : s.current_time + 2 ^ 32 - s.current_time = 2 ^ 32 := by omega
  have hu : u64AsI32 (2 ^ 32) = 0 := by
    show (if 2 ^ 32 % 2 ^ 32 < 2 ^ 31 then ((2 ^ 32 % 2 ^ 32 : ℕ) : ℤ)
      else ((2 ^ 32 % 2 ^ 32 : ℕ) : ℤ) - 2 ^ 32) = 0
    norm_num
  have hp : s.alpha.powi (u64AsI32 (2 ^ 32)) = FP.fin 1 := by
    rw [hu]
    unfold FP.powi
    rw [if_pos (le_refl 0)]
    rfl
  unfold MidasRState.insertStep
  simp [hd, hp]
  have hp' : s.alpha.powi (u64AsI32 4294967296) = FP.fin 1 := by
    rw [show (4294967296 : ℕ) = 2 ^ 32 by norm_num]
    exact hp
  rw [hp']
  exact ⟨rfl, rfl, rfl⟩

/-- On a fresh edge sketch with at least one row, a single weight-one
insert makes the inserted pair's count-min estimate exactly one. -/
theorem EdgeHash.count_new_insert_one (rows B m seed s d : ℕ) (hB : 1 ≤ B)
    (hr : 1 ≤ rows) :
    ((EdgeHash.new rows B m seed).insert s d (FP.fin 1)).count s d = FP.fin 1 := by
  unfold EdgeHash.count EdgeHash.insert
  simp only [List.map_map]
  apply foldl_min_const 1 (by norm_num)
  · intro x hx
    obtain ⟨r, hrm, rfl⟩ := List.mem_map.1 hx
    have hbk := mkRows_buckets B rows _ r hrm
    show (r.insert (EdgeHash.new rows B m seed).m_value s d (FP.fin 1)).count
      (EdgeHash.new rows B m seed).m_value s d = FP.fin 1
    exact Row.count_fresh_insert r B hbk hB _ s d
  · intro hnil
    rw [List.map_eq_nil] at hnil
    have hlenr : (mkRows rows B (Rng.new seed)).length = rows := mkRows_length rows B _
    have hnil' : mkRows rows B (Rng.new seed) = [] := hnil
    rw [hnil'] at hlenr
    simp at hlenr
    omega

/-- Every counter of the current-window sketch of a first-insert state is
finite, nonnegative and representable. -/
theorem MidasR.firstState_current_finBounded (p : MidasRParams) (source dest : ℕ) :
    ∀ r ∈ (MidasR.firstState p source dest).current_count.rows, ∀ v ∈ r.buckets,
      v.finBounded := by
  intro r hr v hv
  have hr' : r ∈ (EdgeHash.new p.rows p.buckets p.m_value 539).rows.map
      (fun r => r.insert (EdgeHash.new p.rows p.buckets p.m_value 539).m_value
        source dest (FP.fin 1)) := hr
  obtain ⟨r0, hr0, rfl⟩ := List.mem_map.1 hr'
  have hbk := mkRows_buckets p.buckets p.rows _ r0 hr0
  unfold Row.insert at hv
  rcases List.mem_or_eq_of_mem_set hv with hv' | rfl
  · rw [hbk] at hv'
    rw [List.eq_of_mem_replicate hv']
    exact ⟨le_refl 0, by positivity⟩
  · rw [hbk, getD_replicate]
    show ((0 : ℚ) + 1 ≥ 0 ∧ (0 : ℚ) + 1 ≤ ((2 ^ 1024 - 2 ^ 971 : ℕ) : ℚ))
    constructor
    · norm_num
    · rw [fmax_cast]
      norm_num

/-- Counterexample to the unrestricted decay claim (C3 as stated): at the
reachable first-insert state (key `(1,2)` inserted at time 0, estimate 1,
alpha one half), an insert of the non-colliding pair `(3,4)` at time
`2^32` — a gap `k = 2^32 > 1` — satisfies every premise of the claim,
yet the sketches are decayed by the factor `alpha^0 = 1` (the source
casts the `u64` delta to `i32`, wrapping `2^32` to exponent zero), not by
`alpha^(2^32)`, and the key's current-window estimate stays 1 instead of
the claimed `alpha^(2^32) * 1`. -/
theorem C3_decay_on_advance_counterexample :
    MidasR.run (MidasR.new ⟨1, 5, 7, FP.fin (1/2)⟩) [(1, 2, 0)] =
      some (MidasR.firstState ⟨1, 5, 7, FP.fin (1/2)⟩ 1 2) ∧
    (MidasR.firstState ⟨1, 5, 7, FP.fin (1/2)⟩ 1 2).current_time < 2 ^ 32 ∧
    1 < 2 ^ 32 - (MidasR.firstState ⟨1, 5, 7, FP.fin (1/2)⟩ 1 2).current_time ∧
    (∀ r ∈ (MidasR.firstState ⟨1, 5, 7, FP.fin (1/2)⟩ 1 2).current_count.rows,
      r.hash (MidasR.firstState ⟨1, 5, 7, FP.fin (1/2)⟩ 1 2).current_count.m_value 3 4 ≠
        r.hash (MidasR.firstState ⟨1, 5, 7, FP.fin (1/2)⟩ 1 2).current_count.m_value 1 2) ∧
    (MidasR.firstState ⟨1, 5, 7, FP.fin (1/2)⟩ 1 2).insertStep (3, 4, 2 ^ 32) = some
      { current_time := 2 ^ 32
        alpha := (MidasR.firstState ⟨1, 5, 7, FP.fin (1/2)⟩ 1 2).alpha
        current_count := ((MidasR.firstState ⟨1, 5, 7, FP.fin (1/2)⟩ 1 2).current_count.lower
          (FP.fin 1)).insert 3 4 (FP.fin 1)
        total_count := (MidasR.firstState ⟨1, 5, 7, FP.fin (1/2)⟩ 1 2).total_count.insert
          3 4 (FP.fin 1)
        source_score := ((MidasR.firstState ⟨1, 5, 7, FP.fin (1/2)⟩ 1 2).source_score.lower
          (FP.fin 1)).insert 3 (FP.fin 1)
        dest_score := ((MidasR.firstState ⟨1, 5, 7, FP.fin (1/2)⟩ 1 2).dest_score.lower
          (FP.fin 1)).insert 4 (FP.fin 1)
        source_total := (MidasR.firstState ⟨1, 5, 7, FP.fin (1/2)⟩ 1 2).source_total.insert
          3 (FP.fin 1)
        dest_total := (MidasR.firstState ⟨1, 5, 7, FP.fin (1/2)⟩ 1 2).dest_total.insert
          4 (FP.fin 1) } ∧
    FP.fin 1 ≠ (MidasR.firstState ⟨1, 5, 7, FP.fin (1/2)⟩ 1 2).alpha.npw (2 ^ 32) ∧
    (((MidasR.firstState ⟨1, 5, 7, FP.fin (1/2)⟩ 1 2).current_count.lower
        (FP.fin 1)).insert 3 4 (FP.fin 1)).count 1 2 ≠
      ((MidasR.firstState ⟨1, 5, 7, FP.fin (1/2)⟩ 1 2).alpha.npw (2 ^ 32)).mul
        ((MidasR.firstState ⟨1, 5, 7, FP.fin (1/2)⟩ 1 2).current_count.count 1 2) := by
  have hpow : ((1 : ℚ)/2) ^ (2 ^ 32 : ℕ) < 1 :=
    pow_lt_one₀ (by norm_num) (by norm_num) (by norm_num)
  refine ⟨?_, by decide, by decide, by decide, ?_, ?_, ?_⟩
  · have hstep0 : (MidasR.new ⟨1, 5, 7, FP.fin (1/2)⟩).insertStep (1, 2, 0) =
        some (MidasR.firstState ⟨1, 5, 7, FP.fin (1/2)⟩ 1 2) := by
      unfold MidasRState.insertStep MidasR.new MidasR.firstState
      norm_num
    show (match (MidasR.new ⟨1, 5, 7, FP.fin (1/2)⟩).insertStep (1, 2, 0) with
      | some s1 => MidasR.run s1 []
      | none => none) = some (MidasR.firstState ⟨1, 5, 7, FP.fin (1/2)⟩ 1 2)
    rw [hstep0]
    rfl
  · exact MidasRState.insertStep_gap_pow32 (MidasR.firstState ⟨1, 5, 7, FP.fin (1/2)⟩ 1 2) 3 4
  · show FP.fin 1 ≠ (FP.fin ((1 : ℚ)/2)).npw (2 ^ 32)
    rw [FP.npw_fin]
    simp only [ne_eq, FP.fin.injEq]
    intro h
    exact absurd h.symm (ne_of_lt hpow)
  · have hbefore : (MidasR.firstState ⟨1, 5, 7, FP.fin (1/2)⟩ 1 2).current_count.count 1 2 =
        FP.fin 1 :=
      EdgeHash.count_new_insert_one 1 5 7 539 1 2 (by norm_num) (by norm_num)
    have hcol0 : ∀ r ∈ (MidasR.firstState ⟨1, 5, 7, FP.fin (1/2)⟩ 1 2).current_count.rows,
        r.hash (MidasR.firstState ⟨1, 5, 7, FP.fin (1/2)⟩ 1 2).current_count.m_value 3 4 ≠
        r.hash (MidasR.firstState ⟨1, 5, 7, FP.fin (1/2)⟩ 1 2).current_count.m_value 1 2 := by
      decide
    have hcolL : ∀ r ∈ ((MidasR.firstState ⟨1, 5, 7, FP.fin (1/2)⟩ 1 2).current_count.lower
        (FP.fin 1)).rows,
        r.hash ((MidasR.firstState ⟨1, 5, 7, FP.fin (1/2)⟩ 1 2).current_count.lower
          (FP.fin 1)).m_value 3 4 ≠
        r.hash ((MidasR.firstState ⟨1, 5, 7, FP.fin (1/2)⟩ 1 2).current_count.lower
          (FP.fin 1)).m_value 1 2 := by
      intro r hr
      have hr' : r ∈ (MidasR.firstState ⟨1, 5, 7, FP.fin (1/2)⟩ 1 2).current_count.rows.map
          (fun r => r.lower (FP.fin 1)) := hr
      obtain ⟨r0, hr0, rfl⟩ := List.mem_map.1 hr'
      show (r0.lower (FP.fin 1)).hash
          (MidasR.firstState ⟨1, 5, 7, FP.fin (1/2)⟩ 1 2).current_count.m_value 3 4 ≠
        (r0.lower (FP.fin 1)).hash
          (MidasR.firstState ⟨1, 5, 7, FP.fin (1/2)⟩ 1 2).current_count.m_value 1 2
      rw [Row.hash_lower, Row.hash_lower]
      exact hcol0 r0 hr0
    rw [EdgeHash.count_insert_ne _ 3 4 1 2 (FP.fin 1) hcolL,
      EdgeHash.count_lower_scale (MidasR.firstState ⟨1, 5, 7, FP.fin (1/2)⟩ 1 2).current_count
        1 (by norm_num) (le_refl 1) 1 2 (by decide) (by decide)
        (MidasR.firstState_current_finBounded ⟨1, 5, 7, FP.fin (1/2)⟩ 1 2),
      hbefore]
    show FP.fin (1 * 1) ≠ ((FP.fin ((1 : ℚ)/2)).npw (2 ^ 32)).mul (FP.fin 1)
    rw [FP.npw_fin]
    show FP.fin (1 * 1) ≠ FP.fin (((1 : ℚ)/2) ^ (2 ^ 32 : ℕ) * 1)
    simp only [ne_eq, FP.fin.injEq, mul_one]
    intro h
    exact absurd h.symm (ne_of_lt hpow)
